import Mathlib

/-!
# Publish-side partition scheduler of the message-queue client

A shallow embedding of `weed/mq/client/pub_client/scheduler.go`
(`StartSchedulerThread`, `onEachAssignments`, `doPublishToPartition`,
`doEnsureConfigureTopic`, `doLookupTopicPartitions`) and the properties of it
that the specification states.

Conventions of the embedding.

* Go errors are `String`s; a `nil` error is `none` (or `Except.ok`).
* Answers of the brokers, results of `Send`/`Recv` on a stream and the values
  received from the fault channel are inputs of the model.
* Goroutine launches, channel closes, waits and index insertions performed by
  the scheduler are recorded, in program order, in a trace of `Event`s.
-/

namespace PubClient

/-! ## Data model -/

/-- Fields of `mq_pb.Partition` that the scheduler reads: the half-open key
range `[RangeStart, RangeStop)` (both `int32`, only compared, never added). -/
structure Partition where
  rangeStart : Int
  rangeStop : Int
deriving DecidableEq, Repr

/-- Fields of `mq_pb.BrokerPartitionAssignment` that the scheduler reads. An
empty `leaderBroker` means the partition has no leader. -/
structure BrokerPartitionAssignment where
  partition : Partition
  leaderBroker : String
deriving DecidableEq, Repr

/-- Identity of the topic of a publisher (`p.namespace`, `p.topic`); it only
appears in error messages. -/
structure TopicName where
  namespace_ : String
  topic : String
deriving DecidableEq, Repr

/-! ## `doLookupTopicPartitions` (scheduler.go 221-261) -/

/-- What one bootstrap broker does when asked for the assignments:
`pb.WithBrokerGrpcClient` fails before the callback runs (`unreachable`),
`client.LookupTopicBrokers` returns an error (`rpcError`), or it returns a
response carrying `BrokerPartitionAssignments`. -/
inductive BrokerReply where
  | unreachable (err : String)
  | rpcError (err : String)
  | response (assignments : List BrokerPartitionAssignment)
deriving DecidableEq, Repr

/-- One iteration of the loop of `doLookupTopicPartitions`: the value `err` of
line 227 together with what the callback (230-251) stores in `assignments`. -/
def lookupOneBroker (r : BrokerReply) : Except String (List BrokerPartitionAssignment) :=
  match r with
  | .unreachable e => .error e
  | .rpcError e => .error e
  | .response assignments =>
    if assignments.length = 0 then .error "no broker partition assignments"
    else .ok assignments

/-- Result of a lookup together with the brokers that were asked, in order. -/
structure LookupRun where
  asked : List String
  result : Except String (List BrokerPartitionAssignment)

/-- Rendering of `lastErr` by `%v`. -/
def showErr : Option String → String
  | none => "<nil>"
  | some e => e

/-- The `for _, brokerAddress := range bootstrapBrokers` loop (226-257) and
the final `return nil, fmt.Errorf(...)` (259). -/
def lookupLoop (t : TopicName) (rpc : String → BrokerReply) :
    List String → Option String → List String → LookupRun
  | [], lastErr, asked =>
    { asked := asked
      result := .error ("lookup topic " ++ t.namespace_ ++ "/" ++ t.topic ++ ": " ++ showErr lastErr) }
  | brokerAddress :: rest, _, asked =>
    match lookupOneBroker (rpc brokerAddress) with
    | .ok assignments => { asked := asked ++ [brokerAddress], result := .ok assignments }
    | .error err => lookupLoop t rpc rest (some err) (asked ++ [brokerAddress])

/-- The function `doLookupTopicPartitions`. -/
def doLookupTopicPartitions (t : TopicName) (rpc : String → BrokerReply)
    (bootstrapBrokers : List String) : LookupRun :=
  if bootstrapBrokers.length = 0 then
    { asked := [], result := .error "no bootstrap brokers" }
  else lookupLoop t rpc bootstrapBrokers none []

/-- A broker counts as failed when it answers with an error or with an empty
assignment list. -/
def BrokerReply.failed : BrokerReply → Bool
  | .response assignments => assignments.isEmpty
  | _ => true

/-! ## `doEnsureConfigureTopic` (scheduler.go 189-219) -/

/-- The loop of `doEnsureConfigureTopic` (194-213) and the code after it
(215-218). `configure b` is the error of `ConfigureTopic` at broker `b`, `none`
for success; the second argument is `lastErr`. -/
def configureLoop (t : TopicName) (configure : String → Option String) :
    List String → Option String → Option String
  | [], none => none
  | [], some err =>
    some ("configure topic " ++ t.namespace_ ++ "/" ++ t.topic ++ ": " ++ err)
  | brokerAddress :: rest, _ =>
    match configure brokerAddress with
    | none => none
    | some err => configureLoop t configure rest (some err)

/-- The function `doEnsureConfigureTopic`; the result is its error. -/
def doEnsureConfigureTopic (t : TopicName) (configure : String → Option String)
    (bootstrapBrokers : List String) : Option String :=
  if bootstrapBrokers.length = 0 then some "no bootstrap brokers"
  else configureLoop t configure bootstrapBrokers none

/-! ## Queues and the range index -/

/-- Payload of a record (`mq_pb.DataMessage`): key and value bytes. -/
structure DataMessage where
  key : List Nat
  value : List Nat
deriving DecidableEq, Repr

/-- Modelled from the spec: the bounded queue `buffered_queue.BufferedQueue`,
which `scheduler.go` imports from `weed/util/buffered_queue`. Section 4.1: `dequeue()`
blocks while empty and not closed; returns `(item, true)` while items remain
(including items buffered before close), and `(_, false)` once empty and
closed. `items` are the records the queue hands to its consumer, oldest first;
`closed` tells whether the queue is closed once they are taken. -/
structure BufferedQueue where
  items : List DataMessage
  closed : Bool
deriving DecidableEq, Repr

/-- The call `buffered_queue.NewBufferedQueue(1024, true)`: empty and open. -/
def NewBufferedQueue : BufferedQueue :=
  { items := [], closed := false }

/-- Modelled from the spec: the Partition Range Index, the type of
`p.partition2Buffer`, which is declared outside `scheduler.go`.
Section 4.2: `insert(start, stop, queue)` registers or replaces the active
queue for a half-open range, overlapping insertions replace the prior mapping
for the overlapping span; `lookup(key)` returns the queue whose range contains
`key`, or not-found. The entries are kept newest first and a lookup takes the
newest entry that contains the key, so that an insertion replaces whatever
was mapped on its span. Queues are named by their address. -/
structure RangeIndex where
  entries : List (Int × Int × Nat)
deriving DecidableEq, Repr

/-- Registers `queue` for `[start, stop)`. -/
def RangeIndex.Insert (ix : RangeIndex) (start stop : Int) (queue : Nat) : RangeIndex :=
  { entries := (start, stop, queue) :: ix.entries }

/-- Queue registered for `key`, if any. -/
def RangeIndex.lookup (ix : RangeIndex) (key : Int) : Option Nat :=
  (ix.entries.find? (fun e => decide (e.1 ≤ key) && decide (key < e.2.1))).map (fun e => e.2.2)

/-! ## Worker records and the publisher -/

/-- The record `EachPartitionPublishJob`. Records are handled through
pointers; `id` is the address of the record and `inputQueue` the address of
its queue. Its `stopChan` and `wg` are named by `id` in the events below. -/
structure EachPartitionPublishJob where
  id : Nat
  assignment : BrokerPartitionAssignment
  generation : Int
  inputQueue : Nat
deriving DecidableEq, Repr

/-- The value `EachPartitionError` a worker sends on the fault channel. -/
structure EachPartitionError where
  assignment : BrokerPartitionAssignment
  err : String
  generation : Int
deriving DecidableEq, Repr

/-- The goroutine launched at lines 109-114. Apart from its argument `job`
(here the record as it is when the goroutine is launched) the closure captures
the variables `assignment` and `generation` of the call of `onEachAssignments`
that launched it. -/
structure Worker where
  job : EachPartitionPublishJob
  assignment : BrokerPartitionAssignment
  generation : Int
deriving DecidableEq, Repr

/-- What the goroutine sends on `errChan` when `doPublishToPartition` returns
`err` (line 112): `EachPartitionError{assignment, err, generation}`, built from
the captured variables. -/
def Worker.fault (w : Worker) (err : String) : EachPartitionError :=
  { assignment := w.assignment, err := err, generation := w.generation }

/-- Effects of the scheduler on the rest of the program, in program order. -/
inductive Event where
  | start (w : Worker)
  | closeStop (job : Nat)
  | wait (job : Nat)
  | insert (rangeStart rangeStop : Int) (queue : Nat)
deriving DecidableEq, Repr

/-- State of the `TopicPublisher` that the scheduler reads and writes: the
worker table `p.jobs`, the range index `p.partition2Buffer`, every queue
allocated so far (by address), the next free record address, and the events
so far. -/
structure TopicPublisher where
  jobs : List EachPartitionPublishJob
  partition2Buffer : RangeIndex
  queues : List BufferedQueue
  nextJob : Nat
  trace : List Event
deriving DecidableEq, Repr

/-- A publisher right after `NewTopicPublisher`: no worker, nothing routed. -/
def TopicPublisher.init : TopicPublisher :=
  { jobs := [], partition2Buffer := { entries := [] }, queues := [], nextJob := 0, trace := [] }

/-! ## `onEachAssignments` (scheduler.go 74-121) -/

/-- Order used by `sort.Slice` at lines 76-78 (its `less` is the strict part). -/
def rangeStartLE (a b : BrokerPartitionAssignment) : Prop :=
  a.partition.rangeStart ≤ b.partition.rangeStart

instance rangeStartLE_decidable : DecidableRel rangeStartLE :=
  fun a b => Int.decLe a.partition.rangeStart b.partition.rangeStart

/-- The call `sort.Slice(assignments, ...)` of lines 76-78: the assignments in
ascending order of `RangeStart`. `sort.Slice` does not promise an order among
equal keys; this one keeps them in their given order. Partitions of a topic
are disjoint, so their range starts differ and the order is determined. -/
def sortSlice (assignments : List BrokerPartitionAssignment) : List BrokerPartitionAssignment :=
  assignments.insertionSort rangeStartLE

/-- Lines 102-118: build the record with a new stop channel and a new queue,
`job.wg.Add(1)`, launch the goroutine, and register the queue at the range of
the assignment. The caller appends the record to `jobs` (line 115). -/
def startJob (generation : Int) (assignment : BrokerPartitionAssignment) (p : TopicPublisher) :
    EachPartitionPublishJob × TopicPublisher :=
  let job : EachPartitionPublishJob :=
    { id := p.nextJob, assignment := assignment, generation := generation,
      inputQueue := p.queues.length }
  (job,
    { p with
      queues := p.queues ++ [NewBufferedQueue]
      nextJob := p.nextJob + 1
      trace := p.trace ++
        [Event.start { job := job, assignment := assignment, generation := generation },
         Event.insert assignment.partition.rangeStart assignment.partition.rangeStop
           job.inputQueue]
      partition2Buffer :=
        p.partition2Buffer.Insert assignment.partition.rangeStart
          assignment.partition.rangeStop job.inputQueue })

/-- Lines 94 and 96: `close(existingJob.stopChan)` and the beginning of
`existingJob.wg.Wait()`. Line 95 blanks the leader of the record, which no
later line reads, the record being left out of the new table. -/
def signalStop (existingJob : EachPartitionPublishJob) (p : TopicPublisher) : TopicPublisher :=
  { p with trace := p.trace ++ [Event.closeStop existingJob.id, Event.wait existingJob.id] }

/-- State of the loop at line 81: it goes on with the publisher `p` and the
local slice `jobs`, or the scheduler stays in `existingJob.wg.Wait()` (line 96)
because the goroutine of `job` does not return. -/
inductive Step where
  | next (p : TopicPublisher) (jobs : List EachPartitionPublishJob)
  | blocked (p : TopicPublisher) (job : Nat)
deriving DecidableEq, Repr

/-- Body of the loop `for i, assignment := range assignments` (lines 82-118).
`finishes j` tells whether the goroutine of the record at address `j` returns,
so that `wg.Wait()` on it returns. `p.jobs[i]` exists whenever
`hasExistingJob` holds, the two slices having the same length; the last case
is therefore the case `hasExistingJob = false`. Line 89 writes the generation
through the pointer; the model shows the new tag in the new table only. -/
def eachAssignment (finishes : Nat → Bool) (generation : Int) (hasExistingJob : Bool)
    (i : Nat) (assignment : BrokerPartitionAssignment) (p : TopicPublisher)
    (jobs : List EachPartitionPublishJob) : Step :=
  if assignment.leaderBroker = "" then Step.next p jobs
  else
    match (if hasExistingJob then p.jobs[i]? else none) with
    | some existingJob =>
      if existingJob.assignment.leaderBroker = assignment.leaderBroker then
        Step.next p (jobs ++ [{ existingJob with generation := generation }])
      else if existingJob.assignment.leaderBroker ≠ "" then
        if finishes existingJob.id then
          Step.next (startJob generation assignment (signalStop existingJob p)).2
            (jobs ++ [(startJob generation assignment (signalStop existingJob p)).1])
        else Step.blocked (signalStop existingJob p) existingJob.id
      else
        Step.next (startJob generation assignment p).2
          (jobs ++ [(startJob generation assignment p).1])
    | none =>
      Step.next (startJob generation assignment p).2
        (jobs ++ [(startJob generation assignment p).1])

/-- The loop of lines 81-119 from index `i` on. -/
def assignmentsLoop (finishes : Nat → Bool) (generation : Int) (hasExistingJob : Bool) :
    Nat → List BrokerPartitionAssignment → TopicPublisher → List EachPartitionPublishJob → Step
  | _, [], p, jobs => Step.next p jobs
  | i, assignment :: rest, p, jobs =>
    match eachAssignment finishes generation hasExistingJob i assignment p jobs with
    | Step.next p1 jobs1 => assignmentsLoop finishes generation hasExistingJob (i + 1) rest p1 jobs1
    | Step.blocked p1 job => Step.blocked p1 job

/-- Result of a call of `onEachAssignments`: it returns, leaving the publisher
in state `p`, or it never returns, the scheduler waiting at line 96 for the
goroutine of `job`, with the publisher in state `p`. -/
inductive Reconciled where
  | finished (p : TopicPublisher)
  | blocked (p : TopicPublisher) (job : Nat)
deriving DecidableEq, Repr

/-- The function `onEachAssignments`: the sort, `hasExistingJob` (line 80),
the loop, and `p.jobs = jobs` (line 120). -/
def onEachAssignments (finishes : Nat → Bool) (p : TopicPublisher) (generation : Int)
    (assignments : List BrokerPartitionAssignment) : Reconciled :=
  match assignmentsLoop finishes generation
      (decide (p.jobs.length = (sortSlice assignments).length)) 0 (sortSlice assignments) p [] with
  | Step.next p1 jobs => Reconciled.finished { p1 with jobs := jobs }
  | Step.blocked p1 job => Reconciled.blocked p1 job

/-- Successive calls of `onEachAssignments`, each with its generation and its
assignment list; `none` when one of them never returns. -/
def reconcileAll (finishes : Nat → Bool) :
    List (Int × List BrokerPartitionAssignment) → TopicPublisher → Option TopicPublisher
  | [], p => some p
  | (generation, assignments) :: rest, p =>
    match onEachAssignments finishes p generation assignments with
    | Reconciled.finished p1 => reconcileAll finishes rest p1
    | Reconciled.blocked _ _ => none

/-- Workers launched according to a trace. -/
def startedWorkers : List Event → List Worker
  | [] => []
  | Event.start w :: rest => w :: startedWorkers rest
  | _ :: rest => startedWorkers rest

/-- Number of times the stop channel of the record at address `job` was closed. -/
def stopSignals (trace : List Event) (job : Nat) : Nat :=
  trace.count (Event.closeStop job)

/-- Workers that were started and whose stop channel was not closed. -/
def activeWorkers (trace : List Event) : List Worker :=
  (startedWorkers trace).filter (fun w => decide (stopSignals trace w.job.id = 0))

/-! ## `doPublishToPartition` (scheduler.go 123-187) -/

/-- Frames a worker sends on its stream (`mq_pb.PublishMessageRequest`). -/
inductive PublishMessageRequest where
  | init (t : TopicName) (partition : Partition) (ackInterval : Nat)
  | data (d : DataMessage)
deriving DecidableEq, Repr

/-- What the leader broker and the transport do for one worker: the error of
`pb.GrpcDial`, the error of `brokerClient.PublishMessage`, the error of the
`k`-th call of `Send` on the stream (call 0 carries the Init frame), and the
result of the first `stream.Recv()`: a transport error or the `Error` field of
the response. -/
structure BrokerStream where
  dialErr : Option String
  streamErr : Option String
  sendErr : Nat → Option String
  initRecv : Except String String

/-- How a run of `doPublishToPartition` ends: it returns `err`, or it stays in
`job.inputQueue.Dequeue()` on a queue that is empty and not closed. -/
inductive WorkerExit where
  | returned (err : Option String)
  | blockedInDequeue
deriving DecidableEq, Repr

/-- The frames passed to `Send`, in order, and how the run ends. -/
structure PublishRun where
  sent : List PublishMessageRequest
  exit : WorkerExit
deriving DecidableEq, Repr

/-- The loop of lines 177-185. The second argument is the number of `Send`
calls made so far on the stream, then the records `Dequeue` hands out and
whether the queue is closed after them, then the frames sent so far. -/
def sendLoop (sendErr : Nat → Option String) :
    Nat → List DataMessage → Bool → List PublishMessageRequest → PublishRun
  | _, [], closed, sent =>
    { sent := sent
      exit := if closed then WorkerExit.returned none else WorkerExit.blockedInDequeue }
  | k, data :: rest, closed, sent =>
    match sendErr k with
    | some err =>
      { sent := sent ++ [PublishMessageRequest.data data]
        exit := WorkerExit.returned (some ("send publish data: " ++ err)) }
    | none => sendLoop sendErr (k + 1) rest closed (sent ++ [PublishMessageRequest.data data])

/-- The function `doPublishToPartition` for the record `job` whose queue
behaves as `queue`. The goroutine of lines 162-175 only reads acknowledgements
and stores an error in `publishClient.Err`, which nothing here reads. -/
def doPublishToPartition (t : TopicName) (broker : BrokerStream) (job : EachPartitionPublishJob)
    (queue : BufferedQueue) : PublishRun :=
  match broker.dialErr with
  | some err =>
    { sent := []
      exit := WorkerExit.returned
        (some ("dial broker " ++ job.assignment.leaderBroker ++ ": " ++ err)) }
  | none =>
    match broker.streamErr with
    | some err =>
      { sent := [], exit := WorkerExit.returned (some ("create publish client: " ++ err)) }
    | none =>
      match broker.sendErr 0 with
      | some err =>
        { sent := [PublishMessageRequest.init t job.assignment.partition 128]
          exit := WorkerExit.returned (some ("send init message: " ++ err)) }
      | none =>
        match broker.initRecv with
        | Except.error err =>
          { sent := [PublishMessageRequest.init t job.assignment.partition 128]
            exit := WorkerExit.returned (some ("recv init response: " ++ err)) }
        | Except.ok respError =>
          if respError ≠ "" then
            { sent := [PublishMessageRequest.init t job.assignment.partition 128]
              exit := WorkerExit.returned (some ("init response error: " ++ respError)) }
          else
            sendLoop broker.sendErr 1 queue.items queue.closed
              [PublishMessageRequest.init t job.assignment.partition 128]

/-- The Init exchange of lines 127-160 succeeds. -/
def BrokerStream.initOk (broker : BrokerStream) : Prop :=
  broker.dialErr = none ∧ broker.streamErr = none ∧ broker.sendErr 0 = none ∧
    broker.initRecv = Except.ok ""

/-! ## `StartSchedulerThread` (scheduler.go 31-72) -/

/-- What the scheduler does, in program order: a lookup that failed followed
by the sleep of line 52, a lookup that succeeded and started generation
`generation`, the return of `onEachAssignments`, the call `wg.Done()` of line
57, and the receipt of a fault from `errChan` at line 63. -/
inductive SchedEvent where
  | lookupFailed
  | lookupOk (generation : Int)
  | reconciled (generation : Int)
  | ready
  | fault (e : EachPartitionError)
deriving DecidableEq, Repr

/-- Where the scheduler stands when its inputs run out: about to look up
(line 43), receiving from `errChan` (line 63), or inside `onEachAssignments`
waiting for the goroutine of `job` (line 96). -/
inductive SchedPoint where
  | lookingUp
  | receiving
  | waitingForWorker (job : Nat)
deriving DecidableEq, Repr

/-- Local variables of `StartSchedulerThread` with the publisher, the events
so far and the point reached. `errChan` holds the capacity of the channel once
it is made. -/
structure Scheduler where
  generation : Int
  errChan : Option Nat
  p : TopicPublisher
  trace : List SchedEvent
  point : SchedPoint
deriving DecidableEq, Repr

/-- How control leaves the body of the `select` case (lines 64-68). -/
inductive Control where
  | continueFor
  | breakSelect
deriving DecidableEq, Repr

/-- Lines 65-68: `continue` for a fault of an older generation, `break`
otherwise. -/
def onFault (generation : Int) (eachErr : EachPartitionError) : Control :=
  if eachErr.generation < generation then Control.continueFor else Control.breakSelect

/-- The loop `for { select { case eachErr := <-errChan: ... } }` of lines
61-70, fed with the values received from `errChan`. `continue` starts the next
iteration of this `for`. `break` sits inside the `select` and carries no label,
so it ends the `select` statement; that statement is the last one of the body
of this `for`, which has no condition: the next iteration follows. -/
def faultLoop : List EachPartitionError → Scheduler → Scheduler
  | [], s => { s with point := SchedPoint.receiving }
  | eachErr :: rest, s =>
    match onFault s.generation eachErr with
    | Control.continueFor => faultLoop rest { s with trace := s.trace ++ [SchedEvent.fault eachErr] }
    | Control.breakSelect => faultLoop rest { s with trace := s.trace ++ [SchedEvent.fault eachErr] }

/-- The loop of lines 41-71. `lookups` gives the answers of the brokers at the
successive calls of `doLookupTopicPartitions`, `faults` the values received
from `errChan`. The result is the state reached when the inputs run out. -/
def schedulerLoop (t : TopicName) (bootstrapBrokers : List String) (finishes : Nat → Bool)
    (faults : List EachPartitionError) :
    List (String → BrokerReply) → Scheduler → Scheduler
  | [], s => { s with point := SchedPoint.lookingUp }
  | rpc :: later, s =>
    match (doLookupTopicPartitions t rpc bootstrapBrokers).result with
    | Except.ok assignments =>
      let generation := s.generation + 1
      let errChan := match s.errChan with
        | none => some assignments.length
        | some c => some c
      match onEachAssignments finishes s.p generation assignments with
      | Reconciled.blocked p1 job =>
        { generation := generation, errChan := errChan, p := p1
          trace := s.trace ++ [SchedEvent.lookupOk generation]
          point := SchedPoint.waitingForWorker job }
      | Reconciled.finished p1 =>
        faultLoop faults
          { generation := generation, errChan := errChan, p := p1
            trace := s.trace ++ [SchedEvent.lookupOk generation, SchedEvent.reconciled generation]
              ++ (if generation = 1 then [SchedEvent.ready] else [])
            point := SchedPoint.receiving }
    | Except.error _ =>
      schedulerLoop t bootstrapBrokers finishes faults later
        { s with trace := s.trace ++ [SchedEvent.lookupFailed] }

/-- Result of `StartSchedulerThread`: it returns the error of line 34, or it
runs for good, `s` being the state reached when the inputs run out. -/
inductive SchedulerRun where
  | configureFailed (err : String)
  | running (s : Scheduler)
deriving DecidableEq, Repr

/-- The function `StartSchedulerThread`, started on the publisher `p`. -/
def StartSchedulerThread (t : TopicName) (configure : String → Option String)
    (finishes : Nat → Bool) (p : TopicPublisher) (bootstrapBrokers : List String)
    (lookups : List (String → BrokerReply)) (faults : List EachPartitionError) : SchedulerRun :=
  match doEnsureConfigureTopic t configure bootstrapBrokers with
  | some err =>
    SchedulerRun.configureFailed
      ("configure topic " ++ t.namespace_ ++ "/" ++ t.topic ++ ": " ++ err)
  | none =>
    SchedulerRun.running
      (schedulerLoop t bootstrapBrokers finishes faults lookups
        { generation := 0, errChan := none, p := p, trace := [], point := SchedPoint.lookingUp })

/-- State of the publisher when the call has returned or has come to a halt. -/
def Reconciled.publisher : Reconciled → TopicPublisher
  | Reconciled.finished p => p
  | Reconciled.blocked p _ => p

/-- Partition ranges served by the workers that were started and not
signalled to stop, one entry per worker. -/
def activeRanges (trace : List Event) : List Partition :=
  (activeWorkers trace).map (fun w => w.job.assignment.partition)

/-- What a call of `onEachAssignments` with the sorted list `sorted` adds to a
publisher `p`, giving `q`: events `t` at the end of the trace and entries `ne`
in front of the range index, such that every worker started in `t` was
started for an assignment of the list that has a leader, and every entry of
`ne` is the range of such an assignment. -/
def Adds (sorted : List BrokerPartitionAssignment) (p q : TopicPublisher) : Prop :=
  ∃ t ne, q.trace = p.trace ++ t ∧
    q.partition2Buffer.entries = ne ++ p.partition2Buffer.entries ∧
    (∀ w ∈ startedWorkers t,
      w.assignment ∈ sorted ∧ w.assignment.leaderBroker ≠ "" ∧ w.job.assignment = w.assignment) ∧
    (∀ e ∈ ne, ∃ b ∈ sorted, b.leaderBroker ≠ "" ∧ e.1 = b.partition.rangeStart ∧
      e.2.1 = b.partition.rangeStop)

/-- Well-formed states of the publisher: the addresses of the records started
so far are below the next free address and pairwise different; the records of
the table have pairwise different addresses below the next free address, a
leader, a queue that exists, and a stop channel that was not closed; no stop
channel was closed twice, and none of a record not yet allocated. -/
structure WellFormed (p : TopicPublisher) : Prop where
  started_lt : ∀ w ∈ startedWorkers p.trace, w.job.id < p.nextJob
  started_nodup : ((startedWorkers p.trace).map (fun w => w.job.id)).Nodup
  jobs_lt : ∀ j ∈ p.jobs, j.id < p.nextJob
  jobs_nodup : (p.jobs.map (fun j => j.id)).Nodup
  jobs_live : ∀ j ∈ p.jobs, stopSignals p.trace j.id = 0
  jobs_leader : ∀ j ∈ p.jobs, j.assignment.leaderBroker ≠ ""
  jobs_queue : ∀ j ∈ p.jobs, j.inputQueue < p.queues.length
  stops_le : ∀ x, stopSignals p.trace x ≤ 1
  stops_fresh : ∀ x, p.nextJob ≤ x → stopSignals p.trace x = 0

/-- Invariant of the loop of `onEachAssignments` entered in state `p0`, when it
is about to handle index `i` in state `pc` with the local slice `acc`. -/
structure LoopInv (p0 : TopicPublisher) (i : Nat) (pc : TopicPublisher)
    (acc : List EachPartitionPublishJob) : Prop where
  jobs_eq : pc.jobs = p0.jobs
  next_le : p0.nextJob ≤ pc.nextJob
  queues_le : p0.queues.length ≤ pc.queues.length
  started_lt : ∀ w ∈ startedWorkers pc.trace, w.job.id < pc.nextJob
  started_nodup : ((startedWorkers pc.trace).map (fun w => w.job.id)).Nodup
  acc_lt : ∀ j ∈ acc, j.id < pc.nextJob
  acc_leader : ∀ j ∈ acc, j.assignment.leaderBroker ≠ ""
  acc_live : ∀ j ∈ acc, stopSignals pc.trace j.id = 0
  acc_queue : ∀ j ∈ acc, j.inputQueue < pc.queues.length
  acc_nodup : (acc.map (fun j => j.id)).Nodup
  acc_old : ∀ j ∈ acc, j.id < p0.nextJob → j.id ∈ (p0.jobs.take i).map (fun j => j.id)
  todo_live : ∀ j ∈ p0.jobs.drop i, stopSignals pc.trace j.id = 0
  stops_le : ∀ x, stopSignals pc.trace x ≤ 1
  stops_fresh : ∀ x, pc.nextJob ≤ x → stopSignals pc.trace x = 0

/-- Every worker of `trace` that was started and not signalled to stop belongs
to a record of `jobs` for the same partition. -/
def Tracked (jobs : List EachPartitionPublishJob) (trace : List Event) : Prop :=
  ∀ w ∈ startedWorkers trace, stopSignals trace w.job.id = 0 →
    ∃ j ∈ jobs, j.id = w.job.id ∧ j.assignment.partition = w.job.assignment.partition

/-! ## Concrete inputs used in the examples -/

/-- Topic `test/test`, the default of the command `weed_pub`. -/
def exTopic : TopicName :=
  { namespace_ := "test", topic := "test" }

/-- Assignment of the range `[rangeStart, rangeStop)` to `leader`. -/
def assign (rangeStart rangeStop : Int) (leader : String) : BrokerPartitionAssignment :=
  { partition := { rangeStart := rangeStart, rangeStop := rangeStop }, leaderBroker := leader }

/-- A worker record for the range `[0, 10)` led by broker `a`. -/
def exJob : EachPartitionPublishJob :=
  { id := 0, assignment := assign 0 10 "a", generation := 1, inputQueue := 0 }

/-- A queue that hands out three records and is then closed. -/
def exQueue : BufferedQueue :=
  { items := [{ key := [1], value := [1] }, { key := [2], value := [2] },
      { key := [3], value := [3] }]
    closed := true }

/-- A stream on which the Init exchange succeeds and the third `Send` fails. -/
def exFailingStream : BrokerStream :=
  { dialErr := none
    streamErr := none
    sendErr := fun k => if k = 2 then some "broken pipe" else none
    initRecv := Except.ok "" }

/-- A stream on which everything succeeds. -/
def exGoodStream : BrokerStream :=
  { dialErr := none
    streamErr := none
    sendErr := fun _ => none
    initRecv := Except.ok "" }

/-- Every goroutine that is waited for returns. -/
def allFinish : Nat → Bool :=
  fun _ => true

/-- No goroutine that is waited for returns. -/
def noneFinish : Nat → Bool :=
  fun _ => false

/-- A cluster in which every broker answers with the range `[0, 10)` led by
broker `a`. -/
def exCluster : String → BrokerReply :=
  fun _ => BrokerReply.response [assign 0 10 "a"]

/-- A cluster in which no broker can be reached. -/
def exDownCluster : String → BrokerReply :=
  fun _ => BrokerReply.unreachable "connection refused"

/-- Every broker accepts the topic configuration. -/
def exConfigure : String → Option String :=
  fun _ => none

/-- A fault of the worker of the range `[0, 10)`, tagged with `generation`. -/
def exFault (generation : Int) : EachPartitionError :=
  { assignment := assign 0 10 "a", err := "send publish data: broken pipe",
    generation := generation }

/-- A queue holding one record, not closed. -/
def exOpenQueue : BufferedQueue :=
  { items := [{ key := [1], value := [1] }], closed := false }

/-- A publisher with two workers, for `[0, 10)` led by `a` and `[10, 20)` led
by `b`, started at generation 1, each with records in its queue. -/
def exTwoWorkers : TopicPublisher :=
  { jobs :=
      [{ id := 0, assignment := assign 0 10 "a", generation := 1, inputQueue := 0 },
       { id := 1, assignment := assign 10 20 "b", generation := 1, inputQueue := 1 }]
    partition2Buffer := { entries := [(10, 20, 1), (0, 10, 0)] }
    queues := [exOpenQueue, exOpenQueue]
    nextJob := 2
    trace :=
      [Event.start
        { job := { id := 0, assignment := assign 0 10 "a", generation := 1, inputQueue := 0 }
          assignment := assign 0 10 "a"
          generation := 1 },
       Event.insert 0 10 0,
       Event.start
        { job := { id := 1, assignment := assign 10 20 "b", generation := 1, inputQueue := 1 }
          assignment := assign 10 20 "b"
          generation := 1 },
       Event.insert 10 20 1] }

/-- The publisher after the reconciliation of generation 1 with the ranges
`[0, 10)` led by `a` and `[10, 20)` led by `b`. -/
def exReconciled : TopicPublisher :=
  { exTwoWorkers with queues := [NewBufferedQueue, NewBufferedQueue] }

/-! ## Theorems -/

/-! ### Lookup of the assignments -/

theorem lookupOneBroker_ok_iff (r : BrokerReply) (l : List BrokerPartitionAssignment) :
    lookupOneBroker r = Except.ok l ↔ r = BrokerReply.response l ∧ l ≠ [] := by
  cases r with
  | unreachable e => simp [lookupOneBroker]
  | rpcError e => simp [lookupOneBroker]
  | response l2 =>
    by_cases h : l2 = []
    · subst h
      simp [lookupOneBroker]
    · have hlen : l2.length ≠ 0 := by simpa using h
      simp only [lookupOneBroker, hlen, if_false]
      constructor
      · intro h2
        injection h2 with h2
        subst h2
        exact ⟨rfl, h⟩
      · rintro ⟨h2, -⟩
        injection h2 with h2
        rw [h2]

theorem lookupOneBroker_error_iff (r : BrokerReply) :
    (∃ e, lookupOneBroker r = Except.error e) ↔ r.failed = true := by
  cases r with
  | unreachable e => simp [lookupOneBroker, BrokerReply.failed]
  | rpcError e => simp [lookupOneBroker, BrokerReply.failed]
  | response l2 =>
    cases l2 with
    | nil => simp [lookupOneBroker, BrokerReply.failed]
    | cons a l3 => simp [lookupOneBroker, BrokerReply.failed]

theorem lookupLoop_first (t : TopicName) (rpc : String → BrokerReply)
    (pre : List String) (b : String) (post : List String)
    (l : List BrokerPartitionAssignment)
    (hpre : ∀ x ∈ pre, (rpc x).failed = true) (hb : rpc b = BrokerReply.response l)
    (hl : l ≠ []) (lastErr : Option String) (asked : List String) :
    (lookupLoop t rpc (pre ++ b :: post) lastErr asked).result = Except.ok l ∧
      (lookupLoop t rpc (pre ++ b :: post) lastErr asked).asked = asked ++ pre ++ [b] := by
  induction pre generalizing lastErr asked with
  | nil =>
    have h := (lookupOneBroker_ok_iff (rpc b) l).2 ⟨hb, hl⟩
    simp [lookupLoop, h]
  | cons x pre ih =>
    have hx := (lookupOneBroker_error_iff (rpc x)).2 (hpre x (by simp))
    obtain ⟨e, he⟩ := hx
    have ih2 := ih (fun y hy => hpre y (by simp [hy])) (some e) (asked ++ [x])
    simp only [List.cons_append, lookupLoop, he]
    simpa using ih2

theorem lookupLoop_all_failed (t : TopicName) (rpc : String → BrokerReply)
    (brokers : List String) (hall : ∀ x ∈ brokers, (rpc x).failed = true)
    (lastErr : Option String) (asked : List String) :
    (∃ e, (lookupLoop t rpc brokers lastErr asked).result = Except.error e) ∧
      (lookupLoop t rpc brokers lastErr asked).asked = asked ++ brokers := by
  induction brokers generalizing lastErr asked with
  | nil => simp [lookupLoop]
  | cons x rest ih =>
    obtain ⟨e, he⟩ := (lookupOneBroker_error_iff (rpc x)).2 (hall x (by simp))
    have ih2 := ih (fun y hy => hall y (by simp [hy])) (some e) (asked ++ [x])
    simp only [lookupLoop, he]
    simpa using ih2

/-- Every broker list either has a first broker that does not fail, or all of
its brokers fail. -/
theorem first_answer_or_all_failed (rpc : String → BrokerReply) (brokers : List String) :
    (∃ pre b post, brokers = pre ++ b :: post ∧ (∀ x ∈ pre, (rpc x).failed = true) ∧
      (rpc b).failed = false) ∨ (∀ x ∈ brokers, (rpc x).failed = true) := by
  induction brokers with
  | nil => right; simp
  | cons x rest ih =>
    by_cases hx : (rpc x).failed = true
    · rcases ih with ⟨pre, b, post, h1, h2, h3⟩ | h
      · left
        refine ⟨x :: pre, b, post, by simp [h1], ?_, h3⟩
        intro y hy
        rcases List.mem_cons.1 hy with rfl | hy
        · exact hx
        · exact h2 y hy
      · right
        intro y hy
        rcases List.mem_cons.1 hy with rfl | hy
        · exact hx
        · exact h y hy
    · left
      exact ⟨[], x, rest, rfl, by simp, by simpa using hx⟩

theorem not_failed_iff (r : BrokerReply) :
    r.failed = false ↔ ∃ l, r = BrokerReply.response l ∧ l ≠ [] := by
  cases r with
  | unreachable e => simp [BrokerReply.failed]
  | rpcError e => simp [BrokerReply.failed]
  | response l2 => cases l2 <;> simp [BrokerReply.failed]

theorem doLookup_of_first (t : TopicName) (rpc : String → BrokerReply)
    (pre : List String) (b : String) (post : List String) (l : List BrokerPartitionAssignment)
    (hpre : ∀ x ∈ pre, (rpc x).failed = true) (hb : rpc b = BrokerReply.response l)
    (hl : l ≠ []) :
    (doLookupTopicPartitions t rpc (pre ++ b :: post)).result = Except.ok l ∧
      (doLookupTopicPartitions t rpc (pre ++ b :: post)).asked = pre ++ [b] := by
  have hne : (pre ++ b :: post).length ≠ 0 := by simp
  have h := lookupLoop_first t rpc pre b post l hpre hb hl none []
  simp only [doLookupTopicPartitions, hne, if_false]
  simpa using h

theorem doLookup_of_all_failed (t : TopicName) (rpc : String → BrokerReply)
    (brokers : List String) (hall : ∀ x ∈ brokers, (rpc x).failed = true) :
    (∃ e, (doLookupTopicPartitions t rpc brokers).result = Except.error e) ∧
      (doLookupTopicPartitions t rpc brokers).asked = brokers := by
  by_cases hne : brokers.length = 0
  · have h0 : brokers = [] := List.length_eq_zero.1 hne
    subst h0
    simp [doLookupTopicPartitions]
  · have h := lookupLoop_all_failed t rpc brokers hall none []
    simp only [doLookupTopicPartitions, hne, if_false]
    simpa using h

/-- C9: `doLookupTopicPartitions` asks the bootstrap brokers in list order and
returns the assignment list of the first broker that answers without error and
with a non-empty list, asking no broker after it; a successful result is never
empty and always comes from such a first broker, every broker before it having
failed; it returns an error exactly when the list is empty or every broker
failed (answered with an error or with an empty list). -/
theorem doLookupTopicPartitions_first_good_broker (t : TopicName)
    (rpc : String → BrokerReply) (brokers : List String) :
    (∀ pre b post l, brokers = pre ++ b :: post → (∀ x ∈ pre, (rpc x).failed = true) →
        rpc b = BrokerReply.response l → l ≠ [] →
        (doLookupTopicPartitions t rpc brokers).result = Except.ok l ∧
          (doLookupTopicPartitions t rpc brokers).asked = pre ++ [b]) ∧
    (∀ l, (doLookupTopicPartitions t rpc brokers).result = Except.ok l →
        l ≠ [] ∧ ∃ pre b post, brokers = pre ++ b :: post ∧
          (∀ x ∈ pre, (rpc x).failed = true) ∧ rpc b = BrokerReply.response l ∧
          (doLookupTopicPartitions t rpc brokers).asked = pre ++ [b]) ∧
    ((∃ e, (doLookupTopicPartitions t rpc brokers).result = Except.error e) ↔
        (brokers = [] ∨ ∀ x ∈ brokers, (rpc x).failed = true)) := by
  refine ⟨?_, ?_, ?_⟩
  · intro pre b post l hb hpre hrpc hl
    subst hb
    exact doLookup_of_first t rpc pre b post l hpre hrpc hl
  · intro l hres
    rcases first_answer_or_all_failed rpc brokers with ⟨pre, b, post, h1, h2, h3⟩ | hall
    · obtain ⟨l2, hl2, hne⟩ := (not_failed_iff (rpc b)).1 h3
      subst h1
      have h := doLookup_of_first t rpc pre b post l2 h2 hl2 hne
      rw [h.1] at hres
      injection hres with hres
      subst hres
      exact ⟨hne, pre, b, post, rfl, h2, hl2, h.2⟩
    · obtain ⟨⟨e, he⟩, -⟩ := doLookup_of_all_failed t rpc brokers hall
      rw [he] at hres
      cases hres
  · constructor
    · rintro ⟨e, he⟩
      rcases first_answer_or_all_failed rpc brokers with ⟨pre, b, post, h1, h2, h3⟩ | hall
      · obtain ⟨l2, hl2, hne⟩ := (not_failed_iff (rpc b)).1 h3
        subst h1
        have h := doLookup_of_first t rpc pre b post l2 h2 hl2 hne
        rw [h.1] at he
        cases he
      · exact Or.inr hall
    · rintro (h | hall)
      · subst h
        exact (doLookup_of_all_failed t rpc [] (by simp)).1
      · exact (doLookup_of_all_failed t rpc brokers hall).1

/-- C9, at the bootstrap list `[down-broker, up-broker]`: the first broker is
unreachable, the second answers with one assignment, which is returned. -/
theorem doLookupTopicPartitions_first_good_broker_witness :
    (doLookupTopicPartitions { namespace_ := "test", topic := "test" }
        (fun b => if b = "up-broker" then
            BrokerReply.response
              [{ partition := { rangeStart := 0, rangeStop := 10 }, leaderBroker := "up-broker" }]
          else BrokerReply.unreachable "connection refused")
        ["down-broker", "up-broker"]).result =
      Except.ok
        [{ partition := { rangeStart := 0, rangeStop := 10 }, leaderBroker := "up-broker" }] ∧
    (doLookupTopicPartitions { namespace_ := "test", topic := "test" }
        (fun b => if b = "up-broker" then
            BrokerReply.response
              [{ partition := { rangeStart := 0, rangeStop := 10 }, leaderBroker := "up-broker" }]
          else BrokerReply.unreachable "connection refused")
        ["down-broker", "up-broker"]).asked = ["down-broker", "up-broker"] :=
  (doLookupTopicPartitions_first_good_broker { namespace_ := "test", topic := "test" }
    (fun b => if b = "up-broker" then
        BrokerReply.response
          [{ partition := { rangeStart := 0, rangeStop := 10 }, leaderBroker := "up-broker" }]
      else BrokerReply.unreachable "connection refused")
    ["down-broker", "up-broker"]).1 ["down-broker"] "up-broker" []
    [{ partition := { rangeStart := 0, rangeStop := 10 }, leaderBroker := "up-broker" }]
    (by decide) (by decide) (by decide) (by decide)

/-! ### The send loop of a worker -/

theorem sendLoop_no_failure (sendErr : Nat → Option String) (items : List DataMessage)
    (closed : Bool) (k : Nat) (sent : List PublishMessageRequest)
    (h : ∀ j, j < items.length → sendErr (k + j) = none) :
    sendLoop sendErr k items closed sent =
      { sent := sent ++ items.map PublishMessageRequest.data
        exit := if closed then WorkerExit.returned none else WorkerExit.blockedInDequeue } := by
  induction items generalizing k sent with
  | nil => simp [sendLoop]
  | cons d rest ih =>
    have h0 : sendErr k = none := by simpa using h 0 (by simp)
    have ih2 := ih (k + 1) (sent ++ [PublishMessageRequest.data d]) (by
      intro j hj
      have := h (j + 1) (by simpa using hj)
      rw [← this]
      congr 1
      omega)
    simp only [sendLoop, h0, ih2]
    simp

theorem sendLoop_first_failure (sendErr : Nat → Option String) (items : List DataMessage)
    (closed : Bool) (k : Nat) (sent : List PublishMessageRequest) (n : Nat) (e : String)
    (hn : n < items.length) (hfail : sendErr (k + n) = some e)
    (hbefore : ∀ j, j < n → sendErr (k + j) = none) :
    sendLoop sendErr k items closed sent =
      { sent := sent ++ (items.take (n + 1)).map PublishMessageRequest.data
        exit := WorkerExit.returned (some ("send publish data: " ++ e)) } := by
  induction items generalizing k sent n with
  | nil => simp at hn
  | cons d rest ih =>
    cases n with
    | zero =>
      have h0 : sendErr k = some e := by simpa using hfail
      simp [sendLoop, h0]
    | succ m =>
      have h0 : sendErr k = none := by simpa using hbefore 0 (by omega)
      have ih2 := ih (k + 1) (sent ++ [PublishMessageRequest.data d]) m
        (by simpa using hn)
        (by rw [← hfail]; congr 1; omega)
        (by
          intro j hj
          have := hbefore (j + 1) (by omega)
          rw [← this]
          congr 1
          omega)
      simp only [sendLoop, h0, ih2]
      simp

theorem sendLoop_returns_nil_iff (sendErr : Nat → Option String) (items : List DataMessage)
    (k : Nat) (sent : List PublishMessageRequest) :
    (sendLoop sendErr k items true sent).exit = WorkerExit.returned none ↔
      ∀ j, j < items.length → sendErr (k + j) = none := by
  induction items generalizing k sent with
  | nil => simp [sendLoop]
  | cons d rest ih =>
    cases h0 : sendErr k with
    | some e =>
      simp only [sendLoop, h0]
      constructor
      · intro h
        simp at h
      · intro h
        have := h 0 (by simp)
        simp [h0] at this
    | none =>
      simp only [sendLoop, h0]
      rw [ih]
      constructor
      · intro h j hj
        cases j with
        | zero => simpa using h0
        | succ m =>
          have := h m (by simpa using hj)
          rw [← this]
          congr 1
          omega
      · intro h j hj
        have := h (j + 1) (by simpa using hj)
        rw [← this]
        congr 1
        omega

theorem sendLoop_closed_returns (sendErr : Nat → Option String) (items : List DataMessage)
    (k : Nat) (sent : List PublishMessageRequest) :
    ∃ err, (sendLoop sendErr k items true sent).exit = WorkerExit.returned err := by
  induction items generalizing k sent with
  | nil => exact ⟨none, by simp [sendLoop]⟩
  | cons d rest ih =>
    cases h0 : sendErr k with
    | some e => exact ⟨some ("send publish data: " ++ e), by simp [sendLoop, h0]⟩
    | none =>
      simp only [sendLoop, h0]
      exact ih (k + 1) _

theorem doPublishToPartition_streaming (t : TopicName) (broker : BrokerStream)
    (job : EachPartitionPublishJob) (queue : BufferedQueue) (hinit : broker.initOk) :
    doPublishToPartition t broker job queue =
      sendLoop broker.sendErr 1 queue.items queue.closed
        [PublishMessageRequest.init t job.assignment.partition 128] := by
  obtain ⟨h1, h2, h3, h4⟩ := hinit
  simp [doPublishToPartition, h1, h2, h3, h4]

/-- C8: for a worker whose Init exchange succeeded and whose queue hands out
the records `queue.items` and then reports empty-and-closed, whatever the
`Send` calls answer: `doPublishToPartition` returns; if no `Send` of a record
fails it has sent, after the Init frame, exactly one data frame per record, in
dequeue order, and returns nil; if the `Send` of record `n` is the first to
fail it has sent exactly the records up to and including record `n`, nothing
after it, and returns an error; and it returns nil if and only if no `Send` of
a record failed. -/
theorem doPublishToPartition_forwards_in_order (t : TopicName) (broker : BrokerStream)
    (job : EachPartitionPublishJob) (queue : BufferedQueue)
    (hinit : broker.initOk) (hclosed : queue.closed = true) :
    (∃ err, (doPublishToPartition t broker job queue).exit = WorkerExit.returned err) ∧
    ((∀ j, j < queue.items.length → broker.sendErr (1 + j) = none) →
      (doPublishToPartition t broker job queue).sent =
          PublishMessageRequest.init t job.assignment.partition 128 ::
            queue.items.map PublishMessageRequest.data ∧
        (doPublishToPartition t broker job queue).exit = WorkerExit.returned none) ∧
    (∀ n e, n < queue.items.length → broker.sendErr (1 + n) = some e →
      (∀ j, j < n → broker.sendErr (1 + j) = none) →
      (doPublishToPartition t broker job queue).sent =
          PublishMessageRequest.init t job.assignment.partition 128 ::
            (queue.items.take (n + 1)).map PublishMessageRequest.data ∧
        (doPublishToPartition t broker job queue).exit =
          WorkerExit.returned (some ("send publish data: " ++ e))) ∧
    ((doPublishToPartition t broker job queue).exit = WorkerExit.returned none ↔
      ∀ j, j < queue.items.length → broker.sendErr (1 + j) = none) := by
  rw [doPublishToPartition_streaming t broker job queue hinit, hclosed]
  refine ⟨sendLoop_closed_returns _ _ _ _, ?_, ?_, sendLoop_returns_nil_iff _ _ _ _⟩
  · intro h
    rw [sendLoop_no_failure _ _ _ _ _ h]
    simp
  · intro n e hn hfail hbefore
    rw [sendLoop_first_failure _ _ _ _ _ n e hn hfail hbefore]
    simp

/-- C8 at a queue that hands out three records and is then closed, on a stream
whose third `Send` (the second record) fails: two data frames are sent. -/
theorem doPublishToPartition_forwards_in_order_witness :
    (doPublishToPartition exTopic exFailingStream exJob exQueue).sent =
      [PublishMessageRequest.init exTopic { rangeStart := 0, rangeStop := 10 } 128,
        PublishMessageRequest.data { key := [1], value := [1] },
        PublishMessageRequest.data { key := [2], value := [2] }] ∧
    (doPublishToPartition exTopic exFailingStream exJob exQueue).exit =
      WorkerExit.returned (some ("send publish data: " ++ "broken pipe")) :=
  (doPublishToPartition_forwards_in_order exTopic exFailingStream exJob exQueue
    ⟨rfl, rfl, rfl, rfl⟩ rfl).2.2.1 1 "broken pipe" (by decide) rfl
    (by intro j hj; interval_cases j; rfl)

/-! ### The scheduler loop -/

theorem faultLoop_spec (faults : List EachPartitionError) (s : Scheduler) :
    faultLoop faults s =
      { s with trace := s.trace ++ faults.map SchedEvent.fault, point := SchedPoint.receiving } := by
  induction faults generalizing s with
  | nil => simp [faultLoop]
  | cons f rest ih =>
    cases h : onFault s.generation f <;> simp [faultLoop, h, ih]

/-- Shape of every run of the loop of `StartSchedulerThread` that begins with
generation 0: some failed lookups, then nothing more, or a successful lookup
inside whose reconciliation the scheduler is stuck, or a successful lookup, its
reconciliation, the readiness signal and then only receipts of faults. -/
theorem schedulerLoop_shape (t : TopicName) (bootstrapBrokers : List String)
    (finishes : Nat → Bool) (faults : List EachPartitionError)
    (lookups : List (String → BrokerReply)) (s : Scheduler) (h0 : s.generation = 0) :
    ∃ k, k ≤ lookups.length ∧
      (((schedulerLoop t bootstrapBrokers finishes faults lookups s).trace =
            s.trace ++ List.replicate k SchedEvent.lookupFailed ∧
          (schedulerLoop t bootstrapBrokers finishes faults lookups s).generation = 0 ∧
          (schedulerLoop t bootstrapBrokers finishes faults lookups s).point =
            SchedPoint.lookingUp) ∨
        ((schedulerLoop t bootstrapBrokers finishes faults lookups s).trace =
            s.trace ++ List.replicate k SchedEvent.lookupFailed ++ [SchedEvent.lookupOk 1] ∧
          (schedulerLoop t bootstrapBrokers finishes faults lookups s).generation = 1 ∧
          ∃ job, (schedulerLoop t bootstrapBrokers finishes faults lookups s).point =
            SchedPoint.waitingForWorker job) ∨
        ((schedulerLoop t bootstrapBrokers finishes faults lookups s).trace =
            s.trace ++ List.replicate k SchedEvent.lookupFailed ++
              [SchedEvent.lookupOk 1, SchedEvent.reconciled 1, SchedEvent.ready] ++
              faults.map SchedEvent.fault ∧
          (schedulerLoop t bootstrapBrokers finishes faults lookups s).generation = 1 ∧
          (schedulerLoop t bootstrapBrokers finishes faults lookups s).point =
            SchedPoint.receiving)) := by
  induction lookups generalizing s with
  | nil =>
    exact ⟨0, by simp, Or.inl (by simp [schedulerLoop, h0])⟩
  | cons rpc later ih =>
    cases hres : (doLookupTopicPartitions t rpc bootstrapBrokers).result with
    | error e =>
      obtain ⟨k, hk, h⟩ :=
        ih { s with trace := s.trace ++ [SchedEvent.lookupFailed] } h0
      refine ⟨k + 1, by simpa using hk, ?_⟩
      have hrep : ∀ (l : List SchedEvent),
          l ++ [SchedEvent.lookupFailed] ++ List.replicate k SchedEvent.lookupFailed =
            l ++ List.replicate (k + 1) SchedEvent.lookupFailed := by
        intro l
        simp [List.replicate_succ]
      simp only [schedulerLoop, hres]
      simp only [hrep] at h
      exact h
    | ok assignments =>
      refine ⟨0, by simp, ?_⟩
      cases hrec : onEachAssignments finishes s.p (s.generation + 1) assignments with
      | blocked p1 job =>
        right; left
        have hrec1 : onEachAssignments finishes s.p 1 assignments = Reconciled.blocked p1 job := by
          simpa [h0] using hrec
        simp [schedulerLoop, hres, hrec1, h0]
      | finished p1 =>
        right; right
        have hrec1 : onEachAssignments finishes s.p 1 assignments = Reconciled.finished p1 := by
          simpa [h0] using hrec
        simp [schedulerLoop, hres, hrec1, h0, faultLoop_spec]

theorem split_unique {α : Type} (x : α) (A B pre post : List α) (hA : x ∉ A) (hB : x ∉ B)
    (h : pre ++ x :: post = A ++ x :: B) : pre = A ∧ post = B := by
  induction A generalizing pre with
  | nil =>
    cases pre with
    | nil => simpa using h
    | cons y rest =>
      exfalso
      simp only [List.cons_append, List.nil_append, List.cons.injEq] at h
      apply hB
      rw [← h.2]
      simp
  | cons a rest ih =>
    cases pre with
    | nil =>
      exfalso
      simp only [List.cons_append, List.nil_append, List.cons.injEq] at h
      apply hA
      rw [h.1]
      simp
    | cons y rest2 =>
      simp only [List.cons_append, List.cons.injEq] at h
      have hr := ih rest2 (fun hm => hA (List.mem_cons_of_mem _ hm)) h.2
      exact ⟨by rw [h.1, hr.1], hr.2⟩

theorem ready_not_mem_replicate (k : Nat) :
    SchedEvent.ready ∉ List.replicate k SchedEvent.lookupFailed := by
  intro h
  have := List.eq_of_mem_replicate h
  cases this

theorem ready_not_mem_faults (faults : List EachPartitionError) :
    SchedEvent.ready ∉ faults.map SchedEvent.fault := by
  simp

theorem reconciled_not_mem_replicate (k : Nat) (g : Int) :
    SchedEvent.reconciled g ∉ List.replicate k SchedEvent.lookupFailed := by
  intro h
  have := List.eq_of_mem_replicate h
  cases this

/-- C1 (the code departs from the claim): the scheduler has reconciled
generation 1 and receives a fault tagged with generation 1. The `break` of
line 68 only leaves the `select`, so the scheduler receives again from the
fault channel: no second lookup is made although the cluster would answer,
and the generation stays 1. -/
theorem StartSchedulerThread_current_fault_keeps_receiving :
    onFault 1 (exFault 1) = Control.breakSelect ∧
    ∃ s, StartSchedulerThread exTopic exConfigure allFinish TopicPublisher.init ["b"]
        [exCluster, exCluster] [exFault 1] = SchedulerRun.running s ∧
      s.generation = 1 ∧ s.point = SchedPoint.receiving ∧
      s.trace = [SchedEvent.lookupOk 1, SchedEvent.reconciled 1, SchedEvent.ready,
        SchedEvent.fault (exFault 1)] :=
  ⟨by decide, _, rfl, by decide, by decide, by decide⟩

/-- C3 (the code departs from the claim): a worker started at generation 1 for
the range `[0, 10)` is kept by the reconciliation of generation 2, which sets
the generation of its record to 2; the fault the worker reports is built from
the variable `generation` captured when it was launched, so it carries
generation 1, and the test of line 65 discards it at generation 2. -/
theorem kept_worker_fault_has_start_generation :
    ∃ p w, reconcileAll allFinish [(1, [assign 0 10 "a"]), (2, [assign 0 10 "a"])]
        TopicPublisher.init = some p ∧
      p.jobs = [{ id := 0, assignment := assign 0 10 "a", generation := 2, inputQueue := 0 }] ∧
      startedWorkers p.trace = [w] ∧ w.job.id = 0 ∧
      (w.fault "send publish data: broken pipe").generation = 1 ∧
      onFault 2 (w.fault "send publish data: broken pipe") = Control.continueFor :=
  ⟨_, _, rfl, by decide, rfl, by decide, by decide, by decide⟩

/-- C4 (the code departs from the claim): the worker of the range `[0, 10)`,
started at generation 1, holds one record in its queue when generation 2 moves
the range to another leader. `onEachAssignments` closes the stop channel and
waits, and leaves the queue as it is, not closed; on such a queue the send
loop forwards the record and then stays in `Dequeue`, so the worker does not
return and the wait does not end. -/
theorem stopped_worker_queue_stays_open :
    ∃ p1 p2, onEachAssignments allFinish TopicPublisher.init 1 [assign 0 10 "a"] =
        Reconciled.finished p1 ∧
      p1.jobs = [exJob] ∧
      onEachAssignments noneFinish { p1 with queues := [exOpenQueue] } 2 [assign 0 10 "b"] =
        Reconciled.blocked p2 0 ∧
      p2.trace = p1.trace ++ [Event.closeStop 0, Event.wait 0] ∧
      p2.queues = [exOpenQueue] ∧ exOpenQueue.closed = false ∧
      doPublishToPartition exTopic exGoodStream exJob exOpenQueue =
        { sent := [PublishMessageRequest.init exTopic { rangeStart := 0, rangeStop := 10 } 128,
            PublishMessageRequest.data { key := [1], value := [1] }]
          exit := WorkerExit.blockedInDequeue } :=
  ⟨_, _, rfl, by decide, rfl, by decide, by decide, by decide, by decide⟩

/-- C2 fails as stated: two partitions at generation 1, one of them at
generation 2. The table has two records and the list one assignment, so the
range `[0, 10)` gets a new worker while its first worker is not signalled to
stop: two active workers serve the same range. -/
theorem two_active_workers_after_count_change :
    ∃ p, reconcileAll allFinish
        [(1, [assign 10 20 "b", assign 0 10 "a"]), (2, [assign 0 10 "a"])]
        TopicPublisher.init = some p ∧
      activeRanges p.trace =
        [{ rangeStart := 0, rangeStop := 10 }, { rangeStart := 10, rangeStop := 20 },
          { rangeStart := 0, rangeStop := 10 }] ∧
      ¬ (activeRanges p.trace).Nodup :=
  ⟨_, rfl, by decide, by decide⟩

/-- C7 fails as stated: generation 1 registers a queue for `[0, 10)`;
generation 2 reports the same range with an empty leader; after it a lookup
of key 5 still finds the queue of generation 1. -/
theorem empty_leader_range_stays_registered :
    ∃ p, reconcileAll allFinish [(1, [assign 0 10 "a"]), (2, [assign 0 10 ""])]
        TopicPublisher.init = some p ∧
      p.jobs = [] ∧ p.partition2Buffer.lookup 5 = some 0 :=
  ⟨_, rfl, by decide, by decide⟩

/-- C6 fails as stated: two partitions; at generation 2 the first has no
leader and the second has a new leader. The new worker of the second partition
(position 1 of the sorted list) is at position 0 of the new table, which has
no position 1. -/
theorem fresh_worker_not_at_its_position :
    ∃ p, reconcileAll allFinish
        [(1, [assign 0 10 "a", assign 10 20 "b"]), (2, [assign 0 10 "", assign 10 20 "c"])]
        TopicPublisher.init = some p ∧
      p.jobs[1]? = none ∧
      p.jobs[0]? =
        some { id := 2, assignment := assign 10 20 "c", generation := 2, inputQueue := 2 } :=
  ⟨_, rfl, by decide, by decide⟩

/-! ### Reconciliation: unchanged leaders -/

theorem drop_eq_cons {α : Type} (l : List α) (i : Nat) (x : α) (tl : List α)
    (h : l.drop i = x :: tl) : l[i]? = some x ∧ l.drop (i + 1) = tl := by
  constructor
  · have h1 : (l.drop i)[0]? = l[i + 0]? := List.getElem?_drop l i 0
    rw [h] at h1
    simpa using h1.symm
  · have h2 : l.drop (i + 1) = (l.drop i).drop 1 := by
      rw [List.drop_drop]
    rw [h2, h]
    rfl

theorem assignmentsLoop_keep (finishes : Nat → Bool) (generation : Int) (p : TopicPublisher)
    (rest : List BrokerPartitionAssignment) (i : Nat) (acc : List EachPartitionPublishJob)
    (h : List.Forall₂
      (fun (a : BrokerPartitionAssignment) (j : EachPartitionPublishJob) =>
        a.leaderBroker ≠ "" ∧ j.assignment.leaderBroker = a.leaderBroker)
      rest (p.jobs.drop i)) :
    assignmentsLoop finishes generation true i rest p acc =
      Step.next p (acc ++ (p.jobs.drop i).map (fun j => { j with generation := generation })) := by
  induction rest generalizing i acc with
  | nil =>
    have hnil : p.jobs.drop i = [] := by
      cases hd : p.jobs.drop i with
      | nil => rfl
      | cons x tl => rw [hd] at h; cases h
    simp [assignmentsLoop, hnil]
  | cons a rest ih =>
    cases hd : p.jobs.drop i with
    | nil => rw [hd] at h; cases h
    | cons j tl =>
      rw [hd] at h
      cases h with
      | cons hR htl =>
        obtain ⟨hget, hdrop⟩ := drop_eq_cons p.jobs i j tl hd
        have hstep : eachAssignment finishes generation true i a p acc =
            Step.next p (acc ++ [{ j with generation := generation }]) := by
          simp [eachAssignment, hR.1, hget, hR.2]
        rw [← hdrop] at htl
        have ih2 := ih (i + 1) (acc ++ [{ j with generation := generation }]) htl
        simp only [assignmentsLoop, hstep, ih2, hdrop]
        simp

/-- C5: for every worker table and every assignment list that, once sorted by
range start, has as many entries as the table and at each position a
non-empty leader equal to the leader of the worker at that position,
`onEachAssignments` returns and leaves the publisher as it was (no worker
started, no stop signal, no wait, nothing inserted into the range index, no
queue created or touched) except for the table, which holds the same records
in the same order with the same queues, their generation set to the new
generation. -/
theorem onEachAssignments_unchanged_leaders (finishes : Nat → Bool) (p : TopicPublisher)
    (generation : Int) (assignments : List BrokerPartitionAssignment)
    (h : List.Forall₂
      (fun (a : BrokerPartitionAssignment) (j : EachPartitionPublishJob) =>
        a.leaderBroker ≠ "" ∧ j.assignment.leaderBroker = a.leaderBroker)
      (sortSlice assignments) p.jobs) :
    onEachAssignments finishes p generation assignments =
      Reconciled.finished
        { jobs := p.jobs.map (fun j => { j with generation := generation })
          partition2Buffer := p.partition2Buffer
          queues := p.queues
          nextJob := p.nextJob
          trace := p.trace } := by
  have hlen : p.jobs.length = (sortSlice assignments).length := h.length_eq.symm
  have h0 := assignmentsLoop_keep finishes generation p (sortSlice assignments) 0 [] (by simpa using h)
  simp only [onEachAssignments, hlen, decide_True, h0]
  simp

/-- C5 at a table of two workers, with buffered records in their queues, and
the same two leaders reported in the other order. -/
theorem onEachAssignments_unchanged_leaders_witness :
    onEachAssignments noneFinish exTwoWorkers 2 [assign 10 20 "b", assign 0 10 "a"] =
      Reconciled.finished
        { jobs := exTwoWorkers.jobs.map (fun j => { j with generation := 2 })
          partition2Buffer := exTwoWorkers.partition2Buffer
          queues := exTwoWorkers.queues
          nextJob := exTwoWorkers.nextJob
          trace := exTwoWorkers.trace } :=
  onEachAssignments_unchanged_leaders noneFinish exTwoWorkers 2
    [assign 10 20 "b", assign 0 10 "a"]
    (List.Forall₂.cons ⟨by decide, by decide⟩
      (List.Forall₂.cons ⟨by decide, by decide⟩ List.Forall₂.nil))

/-! ### Traces -/

theorem startedWorkers_append (t1 t2 : List Event) :
    startedWorkers (t1 ++ t2) = startedWorkers t1 ++ startedWorkers t2 := by
  induction t1 with
  | nil => rfl
  | cons e rest ih =>
    cases e <;> simp [startedWorkers, ih]

theorem stopSignals_append (t1 t2 : List Event) (x : Nat) :
    stopSignals (t1 ++ t2) x = stopSignals t1 x + stopSignals t2 x := by
  simp [stopSignals, List.count_append]

theorem startedWorkers_signalStop (j : EachPartitionPublishJob) (p : TopicPublisher) :
    startedWorkers (signalStop j p).trace = startedWorkers p.trace := by
  simp [signalStop, startedWorkers_append, startedWorkers]

theorem stopSignals_signalStop (j : EachPartitionPublishJob) (p : TopicPublisher) (x : Nat) :
    stopSignals (signalStop j p).trace x =
      stopSignals p.trace x + (if x = j.id then 1 else 0) := by
  by_cases h : x = j.id
  · subst h
    simp [signalStop, stopSignals_append, stopSignals]
  · have h2 : ¬ j.id = x := fun e => h e.symm
    simp [signalStop, stopSignals_append, stopSignals, h, h2]

theorem startedWorkers_startJob (g : Int) (a : BrokerPartitionAssignment) (p : TopicPublisher) :
    startedWorkers (startJob g a p).2.trace =
      startedWorkers p.trace ++
        [{ job := (startJob g a p).1, assignment := a, generation := g }] := by
  simp [startJob, startedWorkers_append, startedWorkers]

theorem stopSignals_startJob (g : Int) (a : BrokerPartitionAssignment) (p : TopicPublisher)
    (x : Nat) : stopSignals (startJob g a p).2.trace x = stopSignals p.trace x := by
  simp [startJob, stopSignals_append, stopSignals]

/-- The five ways through the body of the loop. -/
theorem eachAssignment_cases (f : Nat → Bool) (g : Int) (h : Bool) (i : Nat)
    (a : BrokerPartitionAssignment) (p : TopicPublisher) (acc : List EachPartitionPublishJob) :
    (a.leaderBroker = "" ∧ eachAssignment f g h i a p acc = Step.next p acc) ∨
    (a.leaderBroker ≠ "" ∧ ∃ j, h = true ∧ p.jobs[i]? = some j ∧
      j.assignment.leaderBroker = a.leaderBroker ∧
      eachAssignment f g h i a p acc = Step.next p (acc ++ [{ j with generation := g }])) ∨
    (a.leaderBroker ≠ "" ∧ ∃ j, h = true ∧ p.jobs[i]? = some j ∧
      j.assignment.leaderBroker ≠ a.leaderBroker ∧ j.assignment.leaderBroker ≠ "" ∧
      f j.id = true ∧
      eachAssignment f g h i a p acc =
        Step.next (startJob g a (signalStop j p)).2 (acc ++ [(startJob g a (signalStop j p)).1])) ∨
    (a.leaderBroker ≠ "" ∧ ∃ j, h = true ∧ p.jobs[i]? = some j ∧
      j.assignment.leaderBroker ≠ a.leaderBroker ∧ j.assignment.leaderBroker ≠ "" ∧
      f j.id = false ∧
      eachAssignment f g h i a p acc = Step.blocked (signalStop j p) j.id) ∨
    (a.leaderBroker ≠ "" ∧
      (∀ j, h = true → p.jobs[i]? = some j → j.assignment.leaderBroker = "") ∧
      eachAssignment f g h i a p acc =
        Step.next (startJob g a p).2 (acc ++ [(startJob g a p).1])) := by
  by_cases ha : a.leaderBroker = ""
  · left
    exact ⟨ha, by simp [eachAssignment, ha]⟩
  · right
    cases h with
    | false =>
      right; right; right
      exact ⟨ha, by simp, by simp [eachAssignment, ha]⟩
    | true =>
      cases hj : p.jobs[i]? with
      | none =>
        right; right; right
        exact ⟨ha, by simp, by simp [eachAssignment, ha, hj]⟩
      | some j =>
        by_cases hsame : j.assignment.leaderBroker = a.leaderBroker
        · left
          exact ⟨ha, j, rfl, rfl, hsame, by simp [eachAssignment, ha, hj, hsame]⟩
        · by_cases hlive : j.assignment.leaderBroker = ""
          · right; right; right
            have ha2 : ¬ "" = a.leaderBroker := fun e => ha e.symm
            refine ⟨ha, ?_, by simp [eachAssignment, ha, hj, hlive, ha2]⟩
            intro j2 _ hj2
            injection hj2 with hj2
            rw [← hj2]
            exact hlive
          · cases hf : f j.id with
            | true =>
              right; left
              exact ⟨ha, j, rfl, rfl, hsame, hlive, hf,
                by simp [eachAssignment, ha, hj, hsame, hlive, hf]⟩
            | false =>
              right; right; left
              exact ⟨ha, j, rfl, rfl, hsame, hlive, hf,
                by simp [eachAssignment, ha, hj, hsame, hlive, hf]⟩

/-! ### Reconciliation: what is added -/

theorem Adds.refl (sorted : List BrokerPartitionAssignment) (p : TopicPublisher) :
    Adds sorted p p :=
  ⟨[], [], by simp, by simp, by simp [startedWorkers], by simp⟩

theorem Adds.trans {sorted : List BrokerPartitionAssignment} {p q r : TopicPublisher}
    (h1 : Adds sorted p q) (h2 : Adds sorted q r) : Adds sorted p r := by
  obtain ⟨t1, n1, ht1, hn1, hw1, he1⟩ := h1
  obtain ⟨t2, n2, ht2, hn2, hw2, he2⟩ := h2
  refine ⟨t1 ++ t2, n2 ++ n1, by simp [ht2, ht1], by simp [hn2, hn1], ?_, ?_⟩
  · intro w hw
    rw [startedWorkers_append] at hw
    rcases List.mem_append.1 hw with hw | hw
    · exact hw1 w hw
    · exact hw2 w hw
  · intro e he
    rcases List.mem_append.1 he with he | he
    · exact he2 e he
    · exact he1 e he

theorem Adds.ofSignalStop (sorted : List BrokerPartitionAssignment) (j : EachPartitionPublishJob)
    (p : TopicPublisher) : Adds sorted p (signalStop j p) :=
  ⟨[Event.closeStop j.id, Event.wait j.id], [], by simp [PubClient.signalStop],
    by simp [PubClient.signalStop], by simp [startedWorkers], by simp⟩

theorem Adds.ofStartJob (sorted : List BrokerPartitionAssignment) (g : Int)
    (a : BrokerPartitionAssignment) (p : TopicPublisher) (ha : a ∈ sorted)
    (hl : a.leaderBroker ≠ "") : Adds sorted p (startJob g a p).2 := by
  refine ⟨[Event.start { job := (PubClient.startJob g a p).1, assignment := a, generation := g },
      Event.insert a.partition.rangeStart a.partition.rangeStop (PubClient.startJob g a p).1.inputQueue],
    [(a.partition.rangeStart, a.partition.rangeStop, (PubClient.startJob g a p).1.inputQueue)],
    by simp [PubClient.startJob], by simp [PubClient.startJob, RangeIndex.Insert], ?_, ?_⟩
  · intro w hw
    simp only [startedWorkers, List.mem_singleton] at hw
    subst hw
    exact ⟨ha, hl, by simp [PubClient.startJob]⟩
  · intro e he
    simp only [List.mem_singleton] at he
    subst he
    exact ⟨a, ha, hl, rfl, rfl⟩

theorem eachAssignment_adds (sorted : List BrokerPartitionAssignment) (f : Nat → Bool) (g : Int)
    (h : Bool) (i : Nat) (a : BrokerPartitionAssignment) (p : TopicPublisher)
    (acc : List EachPartitionPublishJob) (ha : a ∈ sorted) :
    (∀ p1 acc1, eachAssignment f g h i a p acc = Step.next p1 acc1 → Adds sorted p p1) ∧
    (∀ p1 j, eachAssignment f g h i a p acc = Step.blocked p1 j → Adds sorted p p1) := by
  rcases eachAssignment_cases f g h i a p acc with
    ⟨-, he⟩ | ⟨-, j, -, -, -, he⟩ | ⟨hl, j, -, -, -, -, -, he⟩ | ⟨-, j, -, -, -, -, -, he⟩ |
    ⟨hl, -, he⟩ <;> rw [he] <;> constructor
  · intro p1 acc1 e
    injection e with e1 e2
    subst e1
    exact Adds.refl sorted p
  · intro p1 j e
    cases e
  · intro p1 acc1 e
    injection e with e1 e2
    subst e1
    exact Adds.refl sorted p
  · intro p1 j e
    cases e
  · intro p1 acc1 e
    injection e with e1 e2
    subst e1
    exact (Adds.ofSignalStop sorted j p).trans (Adds.ofStartJob sorted g a _ ha hl)
  · intro p1 j e
    cases e
  · intro p1 acc1 e
    cases e
  · intro p1 j2 e
    injection e with e1 e2
    subst e1
    exact Adds.ofSignalStop sorted j p
  · intro p1 acc1 e
    injection e with e1 e2
    subst e1
    exact Adds.ofStartJob sorted g a p ha hl
  · intro p1 j e
    cases e

theorem assignmentsLoop_adds (sorted : List BrokerPartitionAssignment) (f : Nat → Bool) (g : Int)
    (h : Bool) (rest : List BrokerPartitionAssignment) (hsub : ∀ a ∈ rest, a ∈ sorted) (i : Nat)
    (p : TopicPublisher) (acc : List EachPartitionPublishJob) :
    (∀ p1 acc1, assignmentsLoop f g h i rest p acc = Step.next p1 acc1 → Adds sorted p p1) ∧
    (∀ p1 j, assignmentsLoop f g h i rest p acc = Step.blocked p1 j → Adds sorted p p1) := by
  induction rest generalizing i p acc with
  | nil =>
    constructor
    · intro p1 acc1 e
      simp only [assignmentsLoop] at e
      injection e with e1 e2
      subst e1
      exact Adds.refl sorted p
    · intro p1 j e
      simp [assignmentsLoop] at e
  | cons a rest ih =>
    have hstep := eachAssignment_adds sorted f g h i a p acc (hsub a (by simp))
    cases hs : eachAssignment f g h i a p acc with
    | next p2 acc2 =>
      have h2 := hstep.1 p2 acc2 hs
      have ih2 := ih (fun b hb => hsub b (by simp [hb])) (i + 1) p2 acc2
      simp only [assignmentsLoop, hs]
      exact ⟨fun p1 acc1 e => h2.trans (ih2.1 p1 acc1 e),
        fun p1 j e => h2.trans (ih2.2 p1 j e)⟩
    | blocked p2 j2 =>
      have h2 := hstep.2 p2 j2 hs
      simp only [assignmentsLoop, hs]
      constructor
      · intro p1 acc1 e
        cases e
      · intro p1 j e
        injection e with e1 e2
        subst e1
        exact h2

theorem mem_sortSlice (a : BrokerPartitionAssignment) (l : List BrokerPartitionAssignment) :
    a ∈ sortSlice l ↔ a ∈ l :=
  (List.perm_insertionSort rangeStartLE l).mem_iff

theorem onEachAssignments_adds (f : Nat → Bool) (p : TopicPublisher) (g : Int)
    (l : List BrokerPartitionAssignment) :
    Adds l p { (onEachAssignments f p g l).publisher with jobs := p.jobs } := by
  have hloop := assignmentsLoop_adds (sortSlice l) f g
    (decide (p.jobs.length = (sortSlice l).length)) (sortSlice l) (fun a ha => ha) 0 p []
  have hmono : ∀ q, Adds (sortSlice l) p q → Adds l p { q with jobs := p.jobs } := by
    rintro q ⟨t, ne, h1, h2, h3, h4⟩
    refine ⟨t, ne, h1, h2, ?_, ?_⟩
    · intro w hw
      obtain ⟨a1, a2, a3⟩ := h3 w hw
      exact ⟨(mem_sortSlice _ _).1 a1, a2, a3⟩
    · intro e he
      obtain ⟨b, b1, b2⟩ := h4 e he
      exact ⟨b, (mem_sortSlice _ _).1 b1, b2⟩
  cases hs : assignmentsLoop f g (decide (p.jobs.length = (sortSlice l).length)) 0
      (sortSlice l) p [] with
  | next p1 acc1 =>
    have := hmono p1 (hloop.1 p1 acc1 hs)
    simpa [onEachAssignments, hs, Reconciled.publisher] using this
  | blocked p1 j =>
    have := hmono p1 (hloop.2 p1 j hs)
    simpa [onEachAssignments, hs, Reconciled.publisher] using this

theorem lookup_append_of_not_covered (ne old : List (Int × Int × Nat)) (key : Int)
    (h : ∀ e ∈ ne, ¬ (e.1 ≤ key ∧ key < e.2.1)) :
    RangeIndex.lookup { entries := ne ++ old } key = RangeIndex.lookup { entries := old } key := by
  have hnone : ne.find? (fun e => decide (e.1 ≤ key) && decide (key < e.2.1)) = none := by
    rw [List.find?_eq_none]
    intro e he
    have := h e he
    simpa using this
  simp [RangeIndex.lookup, List.find?_append, hnone]

/-- C7, amended: for every reconciliation and every assignment `a` of the list
whose leader is empty, `onEachAssignments` starts no worker for `a` and
inserts nothing into the range index for it: every entry it adds is the range
of an assignment of the list that has a leader, and at every key that no such
assignment covers a lookup answers after the call what it answered before
(not-found where nothing was registered, the queue registered by an earlier
generation where one was). This holds whether the call returns or stays in a
wait. -/
theorem onEachAssignments_empty_leader (f : Nat → Bool) (p : TopicPublisher) (g : Int)
    (l : List BrokerPartitionAssignment) (a : BrokerPartitionAssignment) (_ha : a ∈ l)
    (hempty : a.leaderBroker = "") :
    ∃ t ne, (onEachAssignments f p g l).publisher.trace = p.trace ++ t ∧
      (onEachAssignments f p g l).publisher.partition2Buffer.entries =
        ne ++ p.partition2Buffer.entries ∧
      (∀ w ∈ startedWorkers t, w.assignment ≠ a ∧ w.job.assignment ≠ a) ∧
      (∀ e ∈ ne, ∃ b ∈ l, b.leaderBroker ≠ "" ∧ e.1 = b.partition.rangeStart ∧
        e.2.1 = b.partition.rangeStop) ∧
      (∀ key : Int,
        (∀ b ∈ l, b.leaderBroker ≠ "" →
          ¬ (b.partition.rangeStart ≤ key ∧ key < b.partition.rangeStop)) →
        (onEachAssignments f p g l).publisher.partition2Buffer.lookup key =
          p.partition2Buffer.lookup key) := by
  obtain ⟨t, ne, h1, h2, h3, h4⟩ := onEachAssignments_adds f p g l
  simp only at h1 h2
  refine ⟨t, ne, h1, h2, ?_, h4, ?_⟩
  · intro w hw
    obtain ⟨-, w2, w3⟩ := h3 w hw
    have hne : w.assignment ≠ a := by
      intro e
      rw [e] at w2
      exact w2 hempty
    exact ⟨hne, by rw [w3]; exact hne⟩
  · intro key hkey
    have hcov : ∀ e ∈ ne, ¬ (e.1 ≤ key ∧ key < e.2.1) := by
      intro e he
      obtain ⟨b, hb, hbl, e1, e2⟩ := h4 e he
      rw [e1, e2]
      exact hkey b hb hbl
    have := lookup_append_of_not_covered ne p.partition2Buffer.entries key hcov
    rw [← h2] at this
    exact this

/-- C7, amended, at a table of two workers when the first range loses its
leader and the second changes leader. -/
theorem onEachAssignments_empty_leader_witness :
    ∃ t ne,
      (onEachAssignments allFinish exTwoWorkers 2
        [assign 0 10 "", assign 10 20 "c"]).publisher.trace = exTwoWorkers.trace ++ t ∧
      (onEachAssignments allFinish exTwoWorkers 2
        [assign 0 10 "", assign 10 20 "c"]).publisher.partition2Buffer.entries =
        ne ++ exTwoWorkers.partition2Buffer.entries ∧
      (∀ w ∈ startedWorkers t, w.assignment ≠ assign 0 10 "" ∧ w.job.assignment ≠ assign 0 10 "") ∧
      (∀ e ∈ ne, ∃ b ∈ [assign 0 10 "", assign 10 20 "c"], b.leaderBroker ≠ "" ∧
        e.1 = b.partition.rangeStart ∧ e.2.1 = b.partition.rangeStop) ∧
      (∀ key : Int,
        (∀ b ∈ [assign 0 10 "", assign 10 20 "c"], b.leaderBroker ≠ "" →
          ¬ (b.partition.rangeStart ≤ key ∧ key < b.partition.rangeStop)) →
        (onEachAssignments allFinish exTwoWorkers 2
          [assign 0 10 "", assign 10 20 "c"]).publisher.partition2Buffer.lookup key =
          exTwoWorkers.partition2Buffer.lookup key) :=
  onEachAssignments_empty_leader allFinish exTwoWorkers 2 [assign 0 10 "", assign 10 20 "c"]
    (assign 0 10 "") (by decide) (by decide)

/-! ### Reconciliation: the invariant of the loop -/

theorem split_at_index {α : Type} (l : List α) (i : Nat) (x : α) (h : l[i]? = some x) :
    l = l.take i ++ x :: l.drop (i + 1) ∧ l.take (i + 1) = l.take i ++ [x] ∧
      l.drop i = x :: l.drop (i + 1) := by
  have hlt : i < l.length := by
    by_contra hge
    have : l[i]? = none := List.getElem?_eq_none (by omega)
    rw [this] at h
    cases h
  have hx : l[i] = x := by
    have := List.getElem?_eq_getElem hlt
    rw [this] at h
    injection h
  have hdrop : l.drop i = x :: l.drop (i + 1) := by
    rw [← hx]
    exact List.drop_eq_getElem_cons hlt
  refine ⟨?_, ?_, hdrop⟩
  · rw [← hdrop]
    exact (List.take_append_drop i l).symm
  · rw [List.take_succ, h]
    rfl

theorem mem_take_succ {α : Type} (l : List α) (i : Nat) (x : α) (h : x ∈ l.take i) :
    x ∈ l.take (i + 1) := by
  rw [List.take_succ]
  exact List.mem_append_left _ h

theorem mem_drop_of_succ {α : Type} (l : List α) (i : Nat) (x : α) (h : x ∈ l.drop (i + 1)) :
    x ∈ l.drop i := by
  have h2 : l.drop (i + 1) = (l.drop i).drop 1 := by
    rw [List.drop_drop]
  rw [h2] at h
  exact List.mem_of_mem_drop h

/-- In a table with pairwise different addresses, the address at index `i`
occurs neither before nor after index `i`. -/
theorem id_at_index_unique (jobs : List EachPartitionPublishJob) (i : Nat)
    (j : EachPartitionPublishJob) (hnd : (jobs.map (fun j => j.id)).Nodup)
    (h : jobs[i]? = some j) :
    j.id ∉ (jobs.take i).map (fun j => j.id) ∧
      j.id ∉ (jobs.drop (i + 1)).map (fun j => j.id) := by
  obtain ⟨hsplit, -, -⟩ := split_at_index jobs i j h
  rw [hsplit, List.map_append, List.map_cons, List.nodup_append] at hnd
  obtain ⟨-, h2, h3⟩ := hnd
  constructor
  · intro hm
    exact h3 hm (by simp)
  · exact (List.nodup_cons.1 h2).1

theorem LoopInv.start (p : TopicPublisher) (hwf : WellFormed p) : LoopInv p 0 p [] where
  jobs_eq := rfl
  next_le := le_refl _
  queues_le := le_refl _
  started_lt := hwf.started_lt
  started_nodup := hwf.started_nodup
  acc_lt := by simp
  acc_leader := by simp
  acc_live := by simp
  acc_queue := by simp
  acc_nodup := by simp
  acc_old := by simp
  todo_live := by simpa using hwf.jobs_live
  stops_le := hwf.stops_le
  stops_fresh := hwf.stops_fresh

theorem LoopInv.skip {p0 pc : TopicPublisher} {i : Nat} {acc : List EachPartitionPublishJob}
    (h : LoopInv p0 i pc acc) : LoopInv p0 (i + 1) pc acc :=
  { h with
    acc_old := by
      intro j hj hlt
      obtain ⟨x, hx, hxe⟩ := List.mem_map.1 (h.acc_old j hj hlt)
      exact List.mem_map.2 ⟨x, mem_take_succ _ _ _ hx, hxe⟩
    todo_live := fun j hj => h.todo_live j (mem_drop_of_succ _ _ _ hj) }

theorem mem_of_index {α : Type} (l : List α) (i : Nat) (x : α) (h : l[i]? = some x) :
    x ∈ l ∧ x ∈ l.drop i := by
  obtain ⟨h1, -, h3⟩ := split_at_index l i x h
  constructor
  · rw [h1]
    simp
  · rw [h3]
    simp

theorem LoopInv.keep {p0 pc : TopicPublisher} {i : Nat} {acc : List EachPartitionPublishJob}
    (h : LoopInv p0 i pc acc) (hwf : WellFormed p0) (j : EachPartitionPublishJob)
    (hj : p0.jobs[i]? = some j) (hl : j.assignment.leaderBroker ≠ "") (g : Int) :
    LoopInv p0 (i + 1) pc (acc ++ [{ j with generation := g }]) := by
  obtain ⟨hmem, hdrop⟩ := mem_of_index p0.jobs i j hj
  obtain ⟨-, htake, -⟩ := split_at_index p0.jobs i j hj
  have hlt : j.id < p0.nextJob := hwf.jobs_lt j hmem
  have hnot : ∀ j2 ∈ acc, j2.id ≠ j.id := by
    intro j2 hj2 he
    have := h.acc_old j2 hj2 (by rw [he]; exact hlt)
    rw [he] at this
    exact (id_at_index_unique p0.jobs i j hwf.jobs_nodup hj).1 this
  refine { h.skip with
    acc_lt := ?_, acc_leader := ?_, acc_live := ?_, acc_queue := ?_, acc_nodup := ?_,
    acc_old := ?_ }
  · intro j2 hj2
    rcases List.mem_append.1 hj2 with hj2 | hj2
    · exact h.acc_lt j2 hj2
    · simp only [List.mem_singleton] at hj2
      subst hj2
      exact lt_of_lt_of_le hlt h.next_le
  · intro j2 hj2
    rcases List.mem_append.1 hj2 with hj2 | hj2
    · exact h.acc_leader j2 hj2
    · simp only [List.mem_singleton] at hj2
      subst hj2
      exact hl
  · intro j2 hj2
    rcases List.mem_append.1 hj2 with hj2 | hj2
    · exact h.acc_live j2 hj2
    · simp only [List.mem_singleton] at hj2
      subst hj2
      exact h.todo_live j hdrop
  · intro j2 hj2
    rcases List.mem_append.1 hj2 with hj2 | hj2
    · exact h.acc_queue j2 hj2
    · simp only [List.mem_singleton] at hj2
      subst hj2
      exact lt_of_lt_of_le (hwf.jobs_queue j hmem) h.queues_le
  · rw [List.map_append, List.nodup_append]
    refine ⟨h.acc_nodup, by simp, ?_⟩
    intro x hx1 hx2
    simp only [List.map_cons, List.map_nil, List.mem_singleton] at hx2
    obtain ⟨j2, hj2, hj2e⟩ := List.mem_map.1 hx1
    exact hnot j2 hj2 (by rw [hj2e, hx2])
  · intro j2 hj2 hlt2
    rcases List.mem_append.1 hj2 with hj2 | hj2
    · exact h.skip.acc_old j2 hj2 hlt2
    · simp only [List.mem_singleton] at hj2
      subst hj2
      rw [htake]
      simp

theorem LoopInv.stop {p0 pc : TopicPublisher} {i : Nat} {acc : List EachPartitionPublishJob}
    (h : LoopInv p0 i pc acc) (hwf : WellFormed p0) (j : EachPartitionPublishJob)
    (hj : p0.jobs[i]? = some j) : LoopInv p0 (i + 1) (signalStop j pc) acc := by
  obtain ⟨hmem, hdrop⟩ := mem_of_index p0.jobs i j hj
  have hlt : j.id < p0.nextJob := hwf.jobs_lt j hmem
  have huniq := id_at_index_unique p0.jobs i j hwf.jobs_nodup hj
  have hnot : ∀ j2 ∈ acc, j2.id ≠ j.id := by
    intro j2 hj2 he
    have := h.acc_old j2 hj2 (by rw [he]; exact hlt)
    rw [he] at this
    exact huniq.1 this
  refine { h.skip with
    jobs_eq := h.jobs_eq, next_le := h.next_le, queues_le := h.queues_le,
    started_lt := ?_, started_nodup := ?_, acc_lt := h.acc_lt, acc_live := ?_,
    acc_queue := h.acc_queue, todo_live := ?_, stops_le := ?_, stops_fresh := ?_ }
  · rw [startedWorkers_signalStop]
    exact h.started_lt
  · rw [startedWorkers_signalStop]
    exact h.started_nodup
  · intro j2 hj2
    rw [stopSignals_signalStop, if_neg (hnot j2 hj2), h.acc_live j2 hj2]
  · intro j3 hj3
    have hne : j3.id ≠ j.id := by
      intro he
      apply huniq.2
      rw [← he]
      exact List.mem_map.2 ⟨j3, hj3, rfl⟩
    rw [stopSignals_signalStop, if_neg hne]
    exact h.todo_live j3 (mem_drop_of_succ _ _ _ hj3)
  · intro x
    rw [stopSignals_signalStop]
    by_cases hx : x = j.id
    · rw [if_pos hx, hx, h.todo_live j hdrop]
    · rw [if_neg hx]
      exact h.stops_le x
  · intro x hx
    have hne : x ≠ j.id := by
      intro he
      have : (signalStop j pc).nextJob = pc.nextJob := rfl
      rw [this] at hx
      have := h.next_le
      omega
    rw [stopSignals_signalStop, if_neg hne]
    exact h.stops_fresh x hx

theorem LoopInv.fresh {p0 pc : TopicPublisher} {k : Nat} {acc : List EachPartitionPublishJob}
    (h : LoopInv p0 k pc acc) (g : Int) (a : BrokerPartitionAssignment)
    (hl : a.leaderBroker ≠ "") :
    LoopInv p0 k (startJob g a pc).2 (acc ++ [(startJob g a pc).1]) := by
  have hid : (startJob g a pc).1.id = pc.nextJob := rfl
  have hq : (startJob g a pc).1.inputQueue = pc.queues.length := rfl
  have hnext : (startJob g a pc).2.nextJob = pc.nextJob + 1 := rfl
  have hqueues : (startJob g a pc).2.queues.length = pc.queues.length + 1 := by
    simp [startJob]
  refine
    { jobs_eq := h.jobs_eq, next_le := ?_, queues_le := ?_, started_lt := ?_,
      started_nodup := ?_, acc_lt := ?_, acc_leader := ?_, acc_live := ?_, acc_queue := ?_,
      acc_nodup := ?_, acc_old := ?_, todo_live := ?_, stops_le := ?_, stops_fresh := ?_ }
  · rw [hnext]
    exact Nat.le_succ_of_le h.next_le
  · rw [hqueues]
    exact Nat.le_succ_of_le h.queues_le
  · intro w hw
    rw [startedWorkers_startJob] at hw
    rw [hnext]
    rcases List.mem_append.1 hw with hw | hw
    · exact Nat.lt_succ_of_lt (h.started_lt w hw)
    · simp only [List.mem_singleton] at hw
      subst hw
      exact Nat.lt_succ_self _
  · rw [startedWorkers_startJob, List.map_append, List.nodup_append]
    refine ⟨h.started_nodup, by simp, ?_⟩
    intro x hx1 hx2
    simp only [List.map_cons, List.map_nil, List.mem_singleton] at hx2
    obtain ⟨w, hw, hwe⟩ := List.mem_map.1 hx1
    have := h.started_lt w hw
    rw [hwe, hx2, hid] at this
    exact lt_irrefl _ this
  · intro j2 hj2
    rw [hnext]
    rcases List.mem_append.1 hj2 with hj2 | hj2
    · exact Nat.lt_succ_of_lt (h.acc_lt j2 hj2)
    · simp only [List.mem_singleton] at hj2
      subst hj2
      exact Nat.lt_succ_self _
  · intro j2 hj2
    rcases List.mem_append.1 hj2 with hj2 | hj2
    · exact h.acc_leader j2 hj2
    · simp only [List.mem_singleton] at hj2
      subst hj2
      exact hl
  · intro j2 hj2
    rw [stopSignals_startJob]
    rcases List.mem_append.1 hj2 with hj2 | hj2
    · exact h.acc_live j2 hj2
    · simp only [List.mem_singleton] at hj2
      subst hj2
      exact h.stops_fresh _ (le_refl _)
  · intro j2 hj2
    rw [hqueues]
    rcases List.mem_append.1 hj2 with hj2 | hj2
    · exact Nat.lt_succ_of_lt (h.acc_queue j2 hj2)
    · simp only [List.mem_singleton] at hj2
      subst hj2
      exact Nat.lt_succ_self _
  · rw [List.map_append, List.nodup_append]
    refine ⟨h.acc_nodup, by simp, ?_⟩
    intro x hx1 hx2
    simp only [List.map_cons, List.map_nil, List.mem_singleton] at hx2
    obtain ⟨j2, hj2, hj2e⟩ := List.mem_map.1 hx1
    have := h.acc_lt j2 hj2
    rw [hj2e, hx2, hid] at this
    exact lt_irrefl _ this
  · intro j2 hj2 hlt2
    rcases List.mem_append.1 hj2 with hj2 | hj2
    · exact h.acc_old j2 hj2 hlt2
    · simp only [List.mem_singleton] at hj2
      subst hj2
      exfalso
      rw [hid] at hlt2
      have := h.next_le
      omega
  · intro j2 hj2
    rw [stopSignals_startJob]
    exact h.todo_live j2 hj2
  · intro x
    rw [stopSignals_startJob]
    exact h.stops_le x
  · intro x hx
    rw [stopSignals_startJob]
    rw [hnext] at hx
    exact h.stops_fresh x (by omega)

theorem eachAssignment_inv {p0 pc : TopicPublisher} {i : Nat}
    {acc : List EachPartitionPublishJob} (hwf : WellFormed p0) (h : LoopInv p0 i pc acc)
    (f : Nat → Bool) (g : Int) (hx : Bool) (a : BrokerPartitionAssignment)
    (p1 : TopicPublisher) (acc1 : List EachPartitionPublishJob)
    (hs : eachAssignment f g hx i a pc acc = Step.next p1 acc1) :
    LoopInv p0 (i + 1) p1 acc1 := by
  rcases eachAssignment_cases f g hx i a pc acc with
    ⟨-, he⟩ | ⟨hl, j, -, hj, hsame, he⟩ | ⟨hl, j, -, hj, -, -, -, he⟩ |
    ⟨-, j, -, -, -, -, -, he⟩ | ⟨hl, -, he⟩
  · rw [he] at hs
    injection hs with e1 e2
    subst e1 e2
    exact h.skip
  · rw [he] at hs
    injection hs with e1 e2
    subst e1 e2
    rw [h.jobs_eq] at hj
    exact h.keep hwf j hj (by rw [hsame]; exact hl) g
  · rw [he] at hs
    injection hs with e1 e2
    subst e1 e2
    rw [h.jobs_eq] at hj
    exact (h.stop hwf j hj).fresh g a hl
  · rw [he] at hs
    cases hs
  · rw [he] at hs
    injection hs with e1 e2
    subst e1 e2
    exact h.skip.fresh g a hl

theorem assignmentsLoop_inv {p0 : TopicPublisher} (hwf : WellFormed p0) (f : Nat → Bool)
    (g : Int) (hx : Bool) (rest : List BrokerPartitionAssignment) (i : Nat)
    (pc : TopicPublisher) (acc : List EachPartitionPublishJob) (h : LoopInv p0 i pc acc)
    (pf : TopicPublisher) (accf : List EachPartitionPublishJob)
    (hs : assignmentsLoop f g hx i rest pc acc = Step.next pf accf) :
    LoopInv p0 (i + rest.length) pf accf := by
  induction rest generalizing i pc acc with
  | nil =>
    simp only [assignmentsLoop] at hs
    injection hs with e1 e2
    subst e1 e2
    simpa using h
  | cons a rest ih =>
    cases hstep : eachAssignment f g hx i a pc acc with
    | next p1 acc1 =>
      simp only [assignmentsLoop, hstep] at hs
      have h1 := eachAssignment_inv hwf h f g hx a p1 acc1 hstep
      have := ih (i + 1) p1 acc1 h1 hs
      have he : i + (a :: rest).length = i + 1 + rest.length := by
        simp only [List.length_cons]
        omega
      rw [he]
      exact this
    | blocked p1 j =>
      simp [assignmentsLoop, hstep] at hs

theorem LoopInv.finish {p0 pf : TopicPublisher} {n : Nat} {accf : List EachPartitionPublishJob}
    (h : LoopInv p0 n pf accf) : WellFormed { pf with jobs := accf } where
  started_lt := h.started_lt
  started_nodup := h.started_nodup
  jobs_lt := h.acc_lt
  jobs_nodup := h.acc_nodup
  jobs_live := h.acc_live
  jobs_leader := h.acc_leader
  jobs_queue := h.acc_queue
  stops_le := h.stops_le
  stops_fresh := h.stops_fresh

theorem WellFormed.init : WellFormed TopicPublisher.init where
  started_lt := by simp [TopicPublisher.init, startedWorkers]
  started_nodup := by simp [TopicPublisher.init, startedWorkers]
  jobs_lt := by simp [TopicPublisher.init]
  jobs_nodup := by simp [TopicPublisher.init]
  jobs_live := by simp [TopicPublisher.init]
  jobs_leader := by simp [TopicPublisher.init]
  jobs_queue := by simp [TopicPublisher.init]
  stops_le := by simp [TopicPublisher.init, stopSignals]
  stops_fresh := by simp [TopicPublisher.init, stopSignals]

/-- What is known of a call of `onEachAssignments` that returns: the loop ran
through and the new state is the state after the loop with the new table. -/
theorem onEachAssignments_finished (f : Nat → Bool) (p : TopicPublisher) (g : Int)
    (l : List BrokerPartitionAssignment) (q : TopicPublisher)
    (h : onEachAssignments f p g l = Reconciled.finished q) :
    ∃ pf accf, assignmentsLoop f g (decide (p.jobs.length = (sortSlice l).length)) 0
        (sortSlice l) p [] = Step.next pf accf ∧ q = { pf with jobs := accf } := by
  cases hs : assignmentsLoop f g (decide (p.jobs.length = (sortSlice l).length)) 0
      (sortSlice l) p [] with
  | next pf accf =>
    simp only [onEachAssignments, hs] at h
    injection h with h
    exact ⟨pf, accf, rfl, h.symm⟩
  | blocked p1 j =>
    simp [onEachAssignments, hs] at h

theorem onEachAssignments_wellFormed (f : Nat → Bool) (p : TopicPublisher) (g : Int)
    (l : List BrokerPartitionAssignment) (q : TopicPublisher) (hwf : WellFormed p)
    (h : onEachAssignments f p g l = Reconciled.finished q) : WellFormed q := by
  obtain ⟨pf, accf, hs, hq⟩ := onEachAssignments_finished f p g l q h
  rw [hq]
  exact (assignmentsLoop_inv hwf f g _ _ 0 p [] (LoopInv.start p hwf) pf accf hs).finish

theorem reconcileAll_wellFormed (f : Nat → Bool)
    (rs : List (Int × List BrokerPartitionAssignment)) (p q : TopicPublisher)
    (hwf : WellFormed p) (h : reconcileAll f rs p = some q) : WellFormed q := by
  induction rs generalizing p with
  | nil =>
    simp only [reconcileAll] at h
    injection h with h
    rw [← h]
    exact hwf
  | cons r rest ih =>
    obtain ⟨g, l⟩ := r
    cases hs : onEachAssignments f p g l with
    | finished p1 =>
      simp only [reconcileAll, hs] at h
      exact ih p1 (onEachAssignments_wellFormed f p g l p1 hwf hs) h
    | blocked p1 j =>
      simp [reconcileAll, hs] at h

/-! ### Reconciliation: running the loop in two parts -/

theorem assignmentsLoop_append (f : Nat → Bool) (g : Int) (hx : Bool)
    (pre rest : List BrokerPartitionAssignment) (i : Nat) (p : TopicPublisher)
    (acc : List EachPartitionPublishJob) :
    assignmentsLoop f g hx i (pre ++ rest) p acc =
      match assignmentsLoop f g hx i pre p acc with
      | Step.next p1 acc1 => assignmentsLoop f g hx (i + pre.length) rest p1 acc1
      | Step.blocked p1 j => Step.blocked p1 j := by
  induction pre generalizing i p acc with
  | nil => simp [assignmentsLoop]
  | cons a pre ih =>
    cases hstep : eachAssignment f g hx i a p acc with
    | next p1 acc1 =>
      have he : i + (a :: pre).length = i + 1 + pre.length := by
        simp only [List.length_cons]
        omega
      rw [he]
      simp only [List.cons_append, assignmentsLoop, hstep]
      exact ih (i + 1) p1 acc1
    | blocked p1 j =>
      simp [assignmentsLoop, hstep]

/-- What a pass through the body of the loop leaves in place: the table, the
records already in the local slice, to which it adds one record exactly when
the assignment has a leader, and the queues already allocated. -/
theorem eachAssignment_grows (f : Nat → Bool) (g : Int) (hx : Bool) (i : Nat)
    (a : BrokerPartitionAssignment) (p : TopicPublisher) (acc : List EachPartitionPublishJob)
    (p1 : TopicPublisher) (acc1 : List EachPartitionPublishJob)
    (hs : eachAssignment f g hx i a p acc = Step.next p1 acc1) :
    ∃ a2 q2, acc1 = acc ++ a2 ∧ p1.queues = p.queues ++ q2 ∧
      a2.length = [a].countP (fun b => decide (b.leaderBroker ≠ "")) ∧ p1.jobs = p.jobs ∧
      p.nextJob ≤ p1.nextJob := by
  rcases eachAssignment_cases f g hx i a p acc with
    ⟨hl, he⟩ | ⟨hl, j, -, hj, hsame, he⟩ | ⟨hl, j, -, hj, -, -, -, he⟩ |
    ⟨-, j, -, -, -, -, -, he⟩ | ⟨hl, -, he⟩
  · rw [he] at hs
    injection hs with e1 e2
    subst e1 e2
    exact ⟨[], [], by simp, by simp, by simp [hl], rfl, le_refl _⟩
  · rw [he] at hs
    injection hs with e1 e2
    subst e1 e2
    exact ⟨[_], [], rfl, by simp, by simp [hl], rfl, le_refl _⟩
  · rw [he] at hs
    injection hs with e1 e2
    subst e1 e2
    exact ⟨[_], [NewBufferedQueue], rfl, by simp [startJob, signalStop], by simp [hl], rfl,
      by simp [startJob, signalStop]⟩
  · rw [he] at hs
    cases hs
  · rw [he] at hs
    injection hs with e1 e2
    subst e1 e2
    exact ⟨[_], [NewBufferedQueue], rfl, by simp [startJob], by simp [hl], rfl,
      by simp [startJob]⟩

theorem assignmentsLoop_grows (f : Nat → Bool) (g : Int) (hx : Bool)
    (rest : List BrokerPartitionAssignment) (i : Nat) (p : TopicPublisher)
    (acc : List EachPartitionPublishJob) (pf : TopicPublisher)
    (accf : List EachPartitionPublishJob)
    (hs : assignmentsLoop f g hx i rest p acc = Step.next pf accf) :
    ∃ a2 q2, accf = acc ++ a2 ∧ pf.queues = p.queues ++ q2 ∧
      a2.length = rest.countP (fun b => decide (b.leaderBroker ≠ "")) ∧ pf.jobs = p.jobs ∧
      p.nextJob ≤ pf.nextJob := by
  induction rest generalizing i p acc with
  | nil =>
    simp only [assignmentsLoop] at hs
    injection hs with e1 e2
    subst e1 e2
    exact ⟨[], [], by simp, by simp, by simp, rfl, le_refl _⟩
  | cons a rest ih =>
    cases hstep : eachAssignment f g hx i a p acc with
    | next p1 acc1 =>
      simp only [assignmentsLoop, hstep] at hs
      obtain ⟨a2, q2, h1, h2, h3, h4, h5⟩ := eachAssignment_grows f g hx i a p acc p1 acc1 hstep
      obtain ⟨a3, q3, k1, k2, k3, k4, k5⟩ := ih (i + 1) p1 acc1 hs
      refine ⟨a2 ++ a3, q2 ++ q3, by rw [k1, h1, List.append_assoc],
        by rw [k2, h2, List.append_assoc], ?_, by rw [k4, h4], le_trans h5 k5⟩
      have hc : (a :: rest).countP (fun b => decide (b.leaderBroker ≠ "")) =
          [a].countP (fun b => decide (b.leaderBroker ≠ "")) +
            rest.countP (fun b => decide (b.leaderBroker ≠ "")) := by
        rw [← List.countP_append]
        rfl
      rw [List.length_append, h3, k3, hc]
    | blocked p1 j =>
      simp [assignmentsLoop, hstep] at hs

/-- The loop closes the stop channel of a record only at the position of that
record in the table, and only when the assignment there has a leader that
differs from the leader of the record. -/
theorem eachAssignment_stops (f : Nat → Bool) (g : Int) (hx : Bool) (i : Nat)
    (a : BrokerPartitionAssignment) (p : TopicPublisher) (acc : List EachPartitionPublishJob)
    (x : Nat)
    (hno : ∀ j, p.jobs[i]? = some j → j.id = x →
      a.leaderBroker = "" ∨ j.assignment.leaderBroker = a.leaderBroker)
    (p1 : TopicPublisher) (acc1 : List EachPartitionPublishJob)
    (hs : eachAssignment f g hx i a p acc = Step.next p1 acc1) :
    stopSignals p1.trace x = stopSignals p.trace x := by
  rcases eachAssignment_cases f g hx i a p acc with
    ⟨hl, he⟩ | ⟨hl, j, -, hj, hsame, he⟩ | ⟨hl, j, -, hj, hdiff, -, -, he⟩ |
    ⟨-, j, -, -, -, -, -, he⟩ | ⟨hl, -, he⟩
  · rw [he] at hs
    injection hs with e1 e2
    subst e1 e2
    rfl
  · rw [he] at hs
    injection hs with e1 e2
    subst e1 e2
    rfl
  · rw [he] at hs
    injection hs with e1 e2
    subst e1 e2
    have hne : x ≠ j.id := by
      intro e
      rcases hno j hj e.symm with h1 | h1
      · exact hl h1
      · exact hdiff h1
    rw [stopSignals_startJob, stopSignals_signalStop, if_neg hne]
    rfl
  · rw [he] at hs
    cases hs
  · rw [he] at hs
    injection hs with e1 e2
    subst e1 e2
    rw [stopSignals_startJob]

theorem assignmentsLoop_stops (f : Nat → Bool) (g : Int) (hx : Bool)
    (rest : List BrokerPartitionAssignment) (i : Nat) (p : TopicPublisher)
    (acc : List EachPartitionPublishJob) (x : Nat)
    (hno : ∀ k b j, rest[k]? = some b → p.jobs[i + k]? = some j → j.id = x →
      b.leaderBroker = "" ∨ j.assignment.leaderBroker = b.leaderBroker)
    (pf : TopicPublisher) (accf : List EachPartitionPublishJob)
    (hs : assignmentsLoop f g hx i rest p acc = Step.next pf accf) :
    stopSignals pf.trace x = stopSignals p.trace x := by
  induction rest generalizing i p acc with
  | nil =>
    simp only [assignmentsLoop] at hs
    injection hs with e1 e2
    subst e1 e2
    rfl
  | cons a rest ih =>
    cases hstep : eachAssignment f g hx i a p acc with
    | next p1 acc1 =>
      simp only [assignmentsLoop, hstep] at hs
      have h1 := eachAssignment_stops f g hx i a p acc x
        (fun j hj hid => hno 0 a j (by simp) (by simpa using hj) hid) p1 acc1 hstep
      obtain ⟨-, -, -, -, -, hjobs, -⟩ := eachAssignment_grows f g hx i a p acc p1 acc1 hstep
      have h2 := ih (i + 1) p1 acc1 (by
        intro k b j hb hj hid
        rw [hjobs] at hj
        refine hno (k + 1) b j (by simpa using hb) ?_ hid
        rw [← hj]
        congr 1
        omega) hs
      rw [h2, h1]
    | blocked p1 j =>
      simp [assignmentsLoop, hstep] at hs

/-- When every goroutine that is waited for returns, the loop runs through. -/
theorem assignmentsLoop_finishes (f : Nat → Bool) (hf : ∀ x, f x = true) (g : Int) (hx : Bool)
    (rest : List BrokerPartitionAssignment) (i : Nat) (p : TopicPublisher)
    (acc : List EachPartitionPublishJob) :
    ∃ pf accf, assignmentsLoop f g hx i rest p acc = Step.next pf accf := by
  induction rest generalizing i p acc with
  | nil => exact ⟨p, acc, rfl⟩
  | cons a rest ih =>
    rcases eachAssignment_cases f g hx i a p acc with
      ⟨-, he⟩ | ⟨-, j, -, -, -, he⟩ | ⟨-, j, -, -, -, -, -, he⟩ |
      ⟨-, j, -, -, -, -, hfj, he⟩ | ⟨-, -, he⟩
    · simp only [assignmentsLoop, he]
      exact ih _ _ _
    · simp only [assignmentsLoop, he]
      exact ih _ _ _
    · simp only [assignmentsLoop, he]
      exact ih _ _ _
    · rw [hf j.id] at hfj
      cases hfj
    · simp only [assignmentsLoop, he]
      exact ih _ _ _

/-! ### Reconciliation: a record that left the table -/

theorem mem_drop_of_index {α : Type} (l : List α) (n k : Nat) (x : α)
    (h : l[n + k]? = some x) : x ∈ l.drop n := by
  have h1 : (l.drop n)[k]? = l[n + k]? := List.getElem?_drop l n k
  rw [h] at h1
  exact (mem_of_index _ k x h1).1

theorem mem_take_of_index {α : Type} (l : List α) (n k : Nat) (x : α) (hk : k < n)
    (h : l[k]? = some x) : x ∈ l.take n := by
  have h1 : (l.take n)[k]? = l[k]? := by
    rw [List.getElem?_take, if_pos hk]
  rw [h] at h1
  exact (mem_of_index _ k x h1).1

/-- Two positions of a table with pairwise different addresses that hold the
same address are the same position. -/
theorem index_unique (jobs : List EachPartitionPublishJob)
    (hnd : (jobs.map (fun j => j.id)).Nodup) (k k2 : Nat) (j j2 : EachPartitionPublishJob)
    (hk : jobs[k]? = some j) (hk2 : jobs[k2]? = some j2) (hid : j2.id = j.id) : k2 = k := by
  obtain ⟨h1, h2⟩ := id_at_index_unique jobs k j hnd hk
  rcases Nat.lt_trichotomy k2 k with hlt | heq | hgt
  · exfalso
    apply h1
    rw [← hid]
    exact List.mem_map.2 ⟨j2, mem_take_of_index jobs k k2 j2 hlt hk2, rfl⟩
  · exact heq
  · exfalso
    apply h2
    rw [← hid]
    have he : k + 1 + (k2 - (k + 1)) = k2 := by omega
    exact List.mem_map.2 ⟨j2, mem_drop_of_index jobs (k + 1) (k2 - (k + 1)) j2 (by rw [he]; exact hk2),
      rfl⟩

/-- A reconciliation neither brings back into the table a record that is no
longer in it nor closes its stop channel. -/
theorem onEachAssignments_gone (f : Nat → Bool) (p : TopicPublisher) (g : Int)
    (l : List BrokerPartitionAssignment) (q : TopicPublisher) (hwf : WellFormed p)
    (hfin : onEachAssignments f p g l = Reconciled.finished q) (x : Nat)
    (hx : x < p.nextJob) (hnot : x ∉ p.jobs.map (fun j => j.id)) :
    x ∉ q.jobs.map (fun j => j.id) ∧ stopSignals q.trace x = stopSignals p.trace x ∧
      x < q.nextJob := by
  obtain ⟨pf, accf, hs, hq⟩ := onEachAssignments_finished f p g l q hfin
  have hinv := assignmentsLoop_inv hwf f g _ _ 0 p [] (LoopInv.start p hwf) pf accf hs
  have hstops := assignmentsLoop_stops f g _ (sortSlice l) 0 p [] x (by
    intro k b j _ hj hid
    exfalso
    apply hnot
    rw [← hid]
    exact List.mem_map.2 ⟨j, (mem_of_index p.jobs (0 + k) j hj).1, rfl⟩) pf accf hs
  rw [hq]
  refine ⟨?_, hstops, lt_of_lt_of_le hx hinv.next_le⟩
  intro hm
  obtain ⟨j, hj, hje⟩ := List.mem_map.1 hm
  have := hinv.acc_old j hj (by rw [hje]; exact hx)
  rw [hje] at this
  obtain ⟨j2, hj2, hj2e⟩ := List.mem_map.1 this
  exact hnot (List.mem_map.2 ⟨j2, List.mem_of_mem_take hj2, hj2e⟩)

theorem reconcileAll_gone (f : Nat → Bool) (rs : List (Int × List BrokerPartitionAssignment))
    (p q : TopicPublisher) (hwf : WellFormed p) (h : reconcileAll f rs p = some q) (x : Nat)
    (hx : x < p.nextJob) (hnot : x ∉ p.jobs.map (fun j => j.id)) :
    stopSignals q.trace x = stopSignals p.trace x := by
  induction rs generalizing p with
  | nil =>
    simp only [reconcileAll] at h
    injection h with h
    rw [← h]
  | cons r rest ih =>
    obtain ⟨g, l⟩ := r
    cases hs : onEachAssignments f p g l with
    | finished p1 =>
      simp only [reconcileAll, hs] at h
      obtain ⟨h1, h2, h3⟩ := onEachAssignments_gone f p g l p1 hwf hs x hx hnot
      rw [ih p1 (onEachAssignments_wellFormed f p g l p1 hwf hs) h h3 h1, h2]
    | blocked p1 j =>
      simp [reconcileAll, hs] at h

/-! ### Reconciliation: a changed leader -/

/-- The loop up to a position whose assignment has a new leader, the pass at
that position, and the loop after it. -/
theorem assignmentsLoop_at_change (f : Nat → Bool) (p : TopicPublisher) (g : Int)
    (sorted : List BrokerPartitionAssignment) (hwf : WellFormed p) (i : Nat)
    (a : BrokerPartitionAssignment) (old : EachPartitionPublishJob)
    (ha : sorted[i]? = some a) (hold : p.jobs[i]? = some old)
    (hl : a.leaderBroker ≠ "") (hne : old.assignment.leaderBroker ≠ a.leaderBroker)
    (pf : TopicPublisher) (accf : List EachPartitionPublishJob)
    (hs : assignmentsLoop f g true 0 sorted p [] = Step.next pf accf) :
    ∃ pc acc, assignmentsLoop f g true 0 (sorted.take i) p [] = Step.next pc acc ∧
      LoopInv p i pc acc ∧
      assignmentsLoop f g true (i + 1) (sorted.drop (i + 1))
        (startJob g a (signalStop old pc)).2 (acc ++ [(startJob g a (signalStop old pc)).1]) =
        Step.next pf accf := by
  obtain ⟨hsplit, -, -⟩ := split_at_index sorted i a ha
  have hi : i < sorted.length := by
    by_contra hge
    have : sorted[i]? = none := List.getElem?_eq_none (by omega)
    rw [this] at ha
    cases ha
  have hlen : (sorted.take i).length = i := by
    rw [List.length_take]
    omega
  have hs2 : assignmentsLoop f g true 0 (sorted.take i ++ a :: sorted.drop (i + 1)) p [] =
      Step.next pf accf := by
    rw [← hsplit]
    exact hs
  rw [assignmentsLoop_append] at hs2
  cases hpre : assignmentsLoop f g true 0 (sorted.take i) p [] with
  | blocked p1 j =>
    rw [hpre] at hs2
    cases hs2
  | next pc acc =>
    rw [hpre] at hs2
    simp only [hlen, Nat.zero_add] at hs2
    have hinv : LoopInv p i pc acc := by
      have := assignmentsLoop_inv hwf f g true (sorted.take i) 0 p [] (LoopInv.start p hwf)
        pc acc hpre
      rw [hlen, Nat.zero_add] at this
      exact this
    refine ⟨pc, acc, rfl, hinv, ?_⟩
    have holdc : pc.jobs[i]? = some old := by
      rw [hinv.jobs_eq]
      exact hold
    rcases eachAssignment_cases f g true i a pc acc with
      ⟨he0, -⟩ | ⟨-, j, -, hj, hsame, -⟩ | ⟨-, j, -, hj, -, -, -, he⟩ |
      ⟨-, j, -, hj, -, -, -, he⟩ | ⟨-, hnone, -⟩
    · exact absurd he0 hl
    · rw [holdc] at hj
      injection hj with hj
      rw [← hj] at hsame
      exact absurd hsame hne
    · rw [holdc] at hj
      injection hj with hj
      subst hj
      simp only [assignmentsLoop, he] at hs2
      exact hs2
    · simp only [assignmentsLoop, he] at hs2
      cases hs2
    · exact absurd (hnone old rfl holdc) (hwf.jobs_leader old (mem_of_index p.jobs i old hold).1)

theorem onEachAssignments_leader_change_core (f : Nat → Bool) (p : TopicPublisher) (g : Int)
    (l : List BrokerPartitionAssignment) (hwf : WellFormed p) (i : Nat)
    (a : BrokerPartitionAssignment) (old : EachPartitionPublishJob)
    (hlen : p.jobs.length = (sortSlice l).length)
    (ha : (sortSlice l)[i]? = some a) (hold : p.jobs[i]? = some old)
    (hl : a.leaderBroker ≠ "") (hne : old.assignment.leaderBroker ≠ a.leaderBroker)
    (q : TopicPublisher) (hfin : onEachAssignments f p g l = Reconciled.finished q) :
    stopSignals p.trace old.id = 0 ∧ stopSignals q.trace old.id = 1 ∧
      old.id < q.nextJob ∧ old.id ∉ q.jobs.map (fun j => j.id) ∧
      (∃ job,
        q.jobs[((sortSlice l).take i).countP (fun b => decide (b.leaderBroker ≠ ""))]? =
          some job ∧
        job.assignment = a ∧ job.generation = g ∧ p.nextJob ≤ job.id ∧
        p.queues.length ≤ job.inputQueue ∧ job.inputQueue ≠ old.inputQueue ∧
        q.queues[job.inputQueue]? = some NewBufferedQueue ∧
        (a.partition.rangeStart, a.partition.rangeStop, job.inputQueue) ∈
          q.partition2Buffer.entries ∧
        { job := job, assignment := a, generation := g } ∈ startedWorkers q.trace ∧
        (∀ w ∈ startedWorkers p.trace, w.job.id ≠ job.id)) := by
  obtain ⟨pf, accf, hs, hq⟩ := onEachAssignments_finished f p g l q hfin
  have hxt : decide (p.jobs.length = (sortSlice l).length) = true := by
    simp [hlen]
  rw [hxt] at hs
  obtain ⟨pc, acc, hpre, hinv, hpost⟩ :=
    assignmentsLoop_at_change f p g (sortSlice l) hwf i a old ha hold hl hne pf accf hs
  obtain ⟨hmem, hdrop⟩ := mem_of_index p.jobs i old hold
  have hfinv := assignmentsLoop_inv hwf f g true (sortSlice l) 0 p [] (LoopInv.start p hwf)
    pf accf hs
  -- stop signals
  have h0 : stopSignals p.trace old.id = 0 := hwf.jobs_live old hmem
  have hc0 : stopSignals pc.trace old.id = 0 := hinv.todo_live old hdrop
  have h1 : stopSignals (startJob g a (signalStop old pc)).2.trace old.id = 1 := by
    rw [stopSignals_startJob, stopSignals_signalStop, hc0]
    simp
  have hpostStops := assignmentsLoop_stops f g true ((sortSlice l).drop (i + 1)) (i + 1)
    (startJob g a (signalStop old pc)).2 (acc ++ [(startJob g a (signalStop old pc)).1]) old.id
    (by
      intro k b j _ hj hid
      exfalso
      have hjobs : (startJob g a (signalStop old pc)).2.jobs = p.jobs := hinv.jobs_eq
      rw [hjobs] at hj
      apply (id_at_index_unique p.jobs i old hwf.jobs_nodup hold).2
      rw [← hid]
      exact List.mem_map.2 ⟨j, mem_drop_of_index p.jobs (i + 1) k j hj, rfl⟩) pf accf hpost
  have hq1 : stopSignals q.trace old.id = 1 := by
    rw [hq]
    exact hpostStops.trans h1
  -- growth before and after the position
  obtain ⟨a2, q2, hacc, hqueues, ha2, -, hnext⟩ :=
    assignmentsLoop_grows f g true ((sortSlice l).take i) 0 p [] pc acc hpre
  obtain ⟨a3, q3, haccf, hqueuesf, -, -, -⟩ :=
    assignmentsLoop_grows f g true ((sortSlice l).drop (i + 1)) (i + 1)
      (startJob g a (signalStop old pc)).2 (acc ++ [(startJob g a (signalStop old pc)).1])
      pf accf hpost
  obtain ⟨t, ne, htrace, hentries, -, -⟩ :=
    (assignmentsLoop_adds (sortSlice l) f g true ((sortSlice l).drop (i + 1))
      (fun b hb => List.mem_of_mem_drop hb) (i + 1)
      (startJob g a (signalStop old pc)).2
      (acc ++ [(startJob g a (signalStop old pc)).1])).1 pf accf hpost
  have hacclen : acc.length =
      ((sortSlice l).take i).countP (fun b => decide (b.leaderBroker ≠ "")) := by
    rw [hacc]
    simpa using ha2
  have hqlen : p.queues.length ≤ pc.queues.length := hinv.queues_le
  refine ⟨h0, hq1, ?_, ?_, (startJob g a (signalStop old pc)).1, ?_, rfl, rfl, ?_, ?_, ?_, ?_,
    ?_, ?_, ?_⟩
  · rw [hq]
    exact lt_of_lt_of_le (hwf.jobs_lt old hmem) hfinv.next_le
  · rw [hq]
    intro hm
    obtain ⟨j, hj, hje⟩ := List.mem_map.1 hm
    have := hfinv.acc_live j hj
    rw [hje, hpostStops, h1] at this
    cases this
  · rw [hq, ← hacclen]
    simp only
    rw [haccf, List.append_assoc]
    rw [List.getElem?_append_right (le_refl _)]
    simp
  · exact hnext
  · exact hqlen
  · have := hwf.jobs_queue old hmem
    intro he
    have hjq : (startJob g a (signalStop old pc)).1.inputQueue = pc.queues.length := rfl
    rw [hjq] at he
    omega
  · rw [hq]
    simp only
    rw [hqueuesf]
    have hq1 : (startJob g a (signalStop old pc)).2.queues = pc.queues ++ [NewBufferedQueue] :=
      rfl
    have hjq : (startJob g a (signalStop old pc)).1.inputQueue = pc.queues.length := rfl
    rw [hq1, hjq, List.append_assoc, List.getElem?_append_right (le_refl _)]
    simp
  · rw [hq]
    simp only
    rw [hentries]
    apply List.mem_append_right
    simp [startJob, RangeIndex.Insert, signalStop]
  · rw [hq]
    simp only
    rw [htrace, startedWorkers_append, startedWorkers_startJob]
    apply List.mem_append_left
    simp
  · intro w hw he
    have := hwf.started_lt w hw
    have hid : (startJob g a (signalStop old pc)).1.id = pc.nextJob := rfl
    rw [he, hid] at this
    have := hinv.next_le
    omega

/-- C6, amended: in a publisher reached by reconciliations from the empty
table, take a reconciliation whose sorted list has as many assignments as the
table has records and whose assignment `a` at position `i` has a leader that
differs from the leader of the record `old` at position `i`. The call returns
if every goroutine waited for returns, and when it returns: the stop channel
of `old` was not closed before, is closed exactly once by the call, and is
never closed again by later reconciliations; the new table holds, at the
position `i` minus the number of assignments without leader before `i`, a new
record bound to `a`, tagged with the new generation, whose goroutine is
started by this call, with a new empty queue that differs from the queue of
`old` and is registered in the range index at the range of `a`; and the stop
channel of a record whose position has an unchanged leader is not closed. -/
theorem onEachAssignments_leader_change (f0 : Nat → Bool)
    (rs : List (Int × List BrokerPartitionAssignment)) (p : TopicPublisher)
    (hreach : reconcileAll f0 rs TopicPublisher.init = some p)
    (f : Nat → Bool) (g : Int) (l : List BrokerPartitionAssignment) (i : Nat)
    (a : BrokerPartitionAssignment) (old : EachPartitionPublishJob)
    (hlen : p.jobs.length = (sortSlice l).length)
    (ha : (sortSlice l)[i]? = some a) (hold : p.jobs[i]? = some old)
    (hl : a.leaderBroker ≠ "") (hne : old.assignment.leaderBroker ≠ a.leaderBroker) :
    ((∀ x, f x = true) → ∃ q, onEachAssignments f p g l = Reconciled.finished q) ∧
    ∀ q, onEachAssignments f p g l = Reconciled.finished q →
      stopSignals p.trace old.id = 0 ∧ stopSignals q.trace old.id = 1 ∧
      (∀ f2 later q2, reconcileAll f2 later q = some q2 → stopSignals q2.trace old.id = 1) ∧
      (∃ job,
        q.jobs[((sortSlice l).take i).countP (fun b => decide (b.leaderBroker ≠ ""))]? =
          some job ∧
        job.assignment = a ∧ job.generation = g ∧ p.nextJob ≤ job.id ∧
        p.queues.length ≤ job.inputQueue ∧ job.inputQueue ≠ old.inputQueue ∧
        q.queues[job.inputQueue]? = some NewBufferedQueue ∧
        (a.partition.rangeStart, a.partition.rangeStop, job.inputQueue) ∈
          q.partition2Buffer.entries ∧
        { job := job, assignment := a, generation := g } ∈ startedWorkers q.trace ∧
        (∀ w ∈ startedWorkers p.trace, w.job.id ≠ job.id)) ∧
      (∀ (k : Nat) (b : BrokerPartitionAssignment) (j : EachPartitionPublishJob),
        (sortSlice l)[k]? = some b → p.jobs[k]? = some j → b.leaderBroker ≠ "" →
        j.assignment.leaderBroker = b.leaderBroker → stopSignals q.trace j.id = 0) := by
  have hwf : WellFormed p := reconcileAll_wellFormed f0 rs _ p WellFormed.init hreach
  constructor
  · intro hf
    obtain ⟨pf, accf, hs⟩ := assignmentsLoop_finishes f hf g
      (decide (p.jobs.length = (sortSlice l).length)) (sortSlice l) 0 p []
    exact ⟨{ pf with jobs := accf }, by simp [onEachAssignments, hs]⟩
  · intro q hfin
    obtain ⟨h0, h1, hlt, hgone, hjob⟩ :=
      onEachAssignments_leader_change_core f p g l hwf i a old hlen ha hold hl hne q hfin
    refine ⟨h0, h1, ?_, hjob, ?_⟩
    · intro f2 later q2 hlater
      rw [reconcileAll_gone f2 later q q2 (onEachAssignments_wellFormed f p g l q hwf hfin)
        hlater old.id hlt hgone]
      exact h1
    · intro k b j hb hj _ hsame
      obtain ⟨pf, accf, hs, hq⟩ := onEachAssignments_finished f p g l q hfin
      have hstops := assignmentsLoop_stops f g _ (sortSlice l) 0 p [] j.id (by
        intro k2 b2 j2 hb2 hj2 hid
        rw [Nat.zero_add] at hj2
        have hk := index_unique p.jobs hwf.jobs_nodup k k2 j j2 hj hj2 hid
        subst hk
        rw [hb] at hb2
        rw [hj] at hj2
        injection hb2 with hb2
        injection hj2 with hj2
        subst hb2 hj2
        exact Or.inr hsame) pf accf hs
      rw [hq]
      exact hstops.trans (hwf.jobs_live j (mem_of_index p.jobs k j hj).1)

/-- C6, amended, after a first reconciliation with two ranges, when the leader
of the second range changes from `b` to `c`: the call returns and the stop
channel of the old record (address 1) is closed once. -/
theorem onEachAssignments_leader_change_witness :
    ∃ q, onEachAssignments allFinish exReconciled 2 [assign 0 10 "a", assign 10 20 "c"] =
        Reconciled.finished q ∧
      stopSignals exReconciled.trace 1 = 0 ∧ stopSignals q.trace 1 = 1 :=
  ((onEachAssignments_leader_change allFinish
      [(1, [assign 0 10 "a", assign 10 20 "b"])] exReconciled (by decide)
      allFinish 2 [assign 0 10 "a", assign 10 20 "c"] 1 (assign 10 20 "c")
      { id := 1, assignment := assign 10 20 "b", generation := 1, inputQueue := 1 }
      (by decide) (by decide) (by decide) (by decide) (by decide)).1 (fun _ => rfl)).elim
    (fun q hq =>
      ⟨q, hq,
        ((onEachAssignments_leader_change allFinish
          [(1, [assign 0 10 "a", assign 10 20 "b"])] exReconciled (by decide)
          allFinish 2 [assign 0 10 "a", assign 10 20 "c"] 1 (assign 10 20 "c")
          { id := 1, assignment := assign 10 20 "b", generation := 1, inputQueue := 1 }
          (by decide) (by decide) (by decide) (by decide) (by decide)).2 q hq).1,
        ((onEachAssignments_leader_change allFinish
          [(1, [assign 0 10 "a", assign 10 20 "b"])] exReconciled (by decide)
          allFinish 2 [assign 0 10 "a", assign 10 20 "c"] 1 (assign 10 20 "c")
          { id := 1, assignment := assign 10 20 "b", generation := 1, inputQueue := 1 }
          (by decide) (by decide) (by decide) (by decide) (by decide)).2 q hq).2.1⟩)

/-! ### Reconciliation with fixed partitions -/

theorem tracked_keep (acc tl : List EachPartitionPublishJob) (j : EachPartitionPublishJob)
    (g : Int) (trace : List Event) (h : Tracked (acc ++ j :: tl) trace) :
    Tracked ((acc ++ [{ j with generation := g }]) ++ tl) trace := by
  intro w hw hlive
  obtain ⟨j2, hj2, hid, hpart⟩ := h w hw hlive
  rcases List.mem_append.1 hj2 with hm | hm
  · exact ⟨j2, by simp [hm], hid, hpart⟩
  · rcases List.mem_cons.1 hm with hm | hm
    · subst hm
      exact ⟨{ j2 with generation := g }, by simp, hid, hpart⟩
    · exact ⟨j2, by simp [hm], hid, hpart⟩

theorem tracked_fresh (acc tl : List EachPartitionPublishJob) (g : Int)
    (a : BrokerPartitionAssignment) (pc : TopicPublisher) (h : Tracked (acc ++ tl) pc.trace) :
    Tracked ((acc ++ [(startJob g a pc).1]) ++ tl) (startJob g a pc).2.trace := by
  intro w hw hlive
  rw [stopSignals_startJob] at hlive
  rw [startedWorkers_startJob] at hw
  rcases List.mem_append.1 hw with hw | hw
  · obtain ⟨j2, hj2, hid, hpart⟩ := h w hw hlive
    refine ⟨j2, ?_, hid, hpart⟩
    rcases List.mem_append.1 hj2 with hm | hm
    · simp [hm]
    · simp [hm]
  · simp only [List.mem_singleton] at hw
    subst hw
    exact ⟨(startJob g a pc).1, by simp, rfl, rfl⟩

theorem tracked_stop (acc tl : List EachPartitionPublishJob) (j : EachPartitionPublishJob)
    (pc : TopicPublisher) (h : Tracked (acc ++ j :: tl) pc.trace) :
    Tracked (acc ++ tl) (signalStop j pc).trace := by
  intro w hw hlive
  rw [startedWorkers_signalStop] at hw
  rw [stopSignals_signalStop] at hlive
  have hne : w.job.id ≠ j.id := by
    intro he
    rw [if_pos he] at hlive
    omega
  rw [if_neg hne] at hlive
  obtain ⟨j2, hj2, hid, hpart⟩ := h w hw (by omega)
  refine ⟨j2, ?_, hid, hpart⟩
  rcases List.mem_append.1 hj2 with hm | hm
  · simp [hm]
  · rcases List.mem_cons.1 hm with hm | hm
    · subst hm
      exact absurd hid.symm hne
    · simp [hm]

theorem assignmentsLoop_tracked {p0 : TopicPublisher} (hwf : WellFormed p0) (f : Nat → Bool)
    (g : Int) (hx : Bool) (rest : List BrokerPartitionAssignment)
    (hrest : ∀ a ∈ rest, a.leaderBroker ≠ "") (i : Nat) (pc : TopicPublisher)
    (acc : List EachPartitionPublishJob) (hinv : LoopInv p0 i pc acc)
    (hpos : p0.jobs.drop i = [] ∨
      (hx = true ∧ (p0.jobs.drop i).map (fun j => j.assignment.partition) =
        rest.map (fun a => a.partition)))
    (htr : Tracked (acc ++ p0.jobs.drop i) pc.trace)
    (pf : TopicPublisher) (accf : List EachPartitionPublishJob)
    (hs : assignmentsLoop f g hx i rest pc acc = Step.next pf accf) :
    Tracked (accf ++ p0.jobs.drop (i + rest.length)) pf.trace ∧
      accf.map (fun j => j.assignment.partition) =
        acc.map (fun j => j.assignment.partition) ++ rest.map (fun a => a.partition) ∧
      p0.jobs.drop (i + rest.length) = [] := by
  induction rest generalizing i pc acc with
  | nil =>
    simp only [assignmentsLoop] at hs
    injection hs with e1 e2
    subst e1 e2
    refine ⟨by simpa using htr, by simp, ?_⟩
    rcases hpos with h | ⟨-, h⟩
    · simpa using h
    · simpa using h
  | cons a rest ih =>
    have hl : a.leaderBroker ≠ "" := hrest a (by simp)
    have hrest2 : ∀ b ∈ rest, b.leaderBroker ≠ "" := fun b hb => hrest b (by simp [hb])
    have hlen : i + (a :: rest).length = i + 1 + rest.length := by
      simp only [List.length_cons]
      omega
    rw [hlen]
    cases hstep : eachAssignment f g hx i a pc acc with
    | blocked p1 j =>
      simp [assignmentsLoop, hstep] at hs
    | next p1 acc1 =>
      simp only [assignmentsLoop, hstep] at hs
      have hinv1 := eachAssignment_inv hwf hinv f g hx a p1 acc1 hstep
      have hfin : ∀ (hpos1 : p0.jobs.drop (i + 1) = [] ∨
            (hx = true ∧ (p0.jobs.drop (i + 1)).map (fun j => j.assignment.partition) =
              rest.map (fun a => a.partition)))
          (_ : Tracked (acc1 ++ p0.jobs.drop (i + 1)) p1.trace)
          (_ : acc1.map (fun j => j.assignment.partition) =
            acc.map (fun j => j.assignment.partition) ++ [a.partition]),
          Tracked (accf ++ p0.jobs.drop (i + 1 + rest.length)) pf.trace ∧
            accf.map (fun j => j.assignment.partition) =
              acc.map (fun j => j.assignment.partition) ++
                (a :: rest).map (fun a => a.partition) ∧
            p0.jobs.drop (i + 1 + rest.length) = [] := by
        intro hpos1 htr1 hpart1
        obtain ⟨k1, k2, k3⟩ := ih hrest2 (i + 1) p1 acc1 hinv1 hpos1 htr1 hs
        refine ⟨k1, ?_, k3⟩
        rw [k2, hpart1]
        simp
      rcases hpos with hnil | ⟨hxt, hparts⟩
      · -- no record of the old table is left at or after this position
        have hnone : pc.jobs[i]? = none := by
          rw [hinv.jobs_eq]
          apply List.getElem?_eq_none
          have := congrArg List.length hnil
          simp only [List.length_drop, List.length_nil] at this
          omega
        have hnil1 : p0.jobs.drop (i + 1) = [] := by
          have h2 : p0.jobs.drop (i + 1) = (p0.jobs.drop i).drop 1 := by
            rw [List.drop_drop]
          rw [h2, hnil]
          rfl
        rcases eachAssignment_cases f g hx i a pc acc with
          ⟨he0, -⟩ | ⟨-, j, -, hj, -, -⟩ | ⟨-, j, -, hj, -, -, -, -⟩ |
          ⟨-, j, -, hj, -, -, -, -⟩ | ⟨-, -, he⟩
        · exact absurd he0 hl
        · rw [hnone] at hj; cases hj
        · rw [hnone] at hj; cases hj
        · rw [hnone] at hj; cases hj
        · rw [he] at hstep
          injection hstep with e1 e2
          subst e1 e2
          rw [hnil] at htr
          refine hfin (Or.inl hnil1) ?_ (by simp [startJob])
          rw [hnil1]
          exact tracked_fresh acc [] g a pc htr
      · -- the old table has a record for the same partition at this position
        cases hd : p0.jobs.drop i with
        | nil =>
          rw [hd] at hparts
          simp at hparts
        | cons j tl =>
          obtain ⟨hget, hdrop1⟩ := drop_eq_cons p0.jobs i j tl hd
          rw [hd] at hparts htr
          simp only [List.map_cons, List.cons.injEq] at hparts
          have hgetc : pc.jobs[i]? = some j := by
            rw [hinv.jobs_eq]
            exact hget
          have hpos1 : p0.jobs.drop (i + 1) = [] ∨
              (hx = true ∧ (p0.jobs.drop (i + 1)).map (fun j => j.assignment.partition) =
                rest.map (fun a => a.partition)) := by
            right
            rw [hdrop1]
            exact ⟨hxt, hparts.2⟩
          rcases eachAssignment_cases f g hx i a pc acc with
            ⟨he0, -⟩ | ⟨-, j2, -, hj, -, he⟩ | ⟨-, j2, -, hj, -, -, -, he⟩ |
            ⟨-, j2, -, hj, -, -, -, he⟩ | ⟨-, hnone, -⟩
          · exact absurd he0 hl
          · rw [hgetc] at hj
            injection hj with hj
            subst hj
            rw [he] at hstep
            injection hstep with e1 e2
            subst e1 e2
            refine hfin hpos1 ?_ (by simp [hparts.1])
            rw [hdrop1]
            exact tracked_keep acc tl j g pc.trace htr
          · rw [hgetc] at hj
            injection hj with hj
            subst hj
            rw [he] at hstep
            injection hstep with e1 e2
            subst e1 e2
            refine hfin hpos1 ?_ (by simp [startJob])
            rw [hdrop1]
            exact tracked_fresh acc tl g a (signalStop j pc) (tracked_stop acc tl j pc htr)
          · rw [he] at hstep
            cases hstep
          · exact absurd (hnone j hxt hgetc)
              (hwf.jobs_leader j (mem_of_index p0.jobs i j hget).1)

theorem onEachAssignments_fixed (f : Nat → Bool) (p : TopicPublisher) (g : Int)
    (l : List BrokerPartitionAssignment) (q : TopicPublisher) (parts : List Partition)
    (hwf : WellFormed p) (htr : Tracked p.jobs p.trace)
    (hjobs : p.jobs = [] ∨ p.jobs.map (fun j => j.assignment.partition) = parts)
    (hl : ∀ a ∈ l, a.leaderBroker ≠ "")
    (hparts : (sortSlice l).map (fun a => a.partition) = parts)
    (hfin : onEachAssignments f p g l = Reconciled.finished q) :
    Tracked q.jobs q.trace ∧
      (q.jobs = [] ∨ q.jobs.map (fun j => j.assignment.partition) = parts) := by
  obtain ⟨pf, accf, hs, hq⟩ := onEachAssignments_finished f p g l q hfin
  have hpos : p.jobs.drop 0 = [] ∨
      (decide (p.jobs.length = (sortSlice l).length) = true ∧
        (p.jobs.drop 0).map (fun j => j.assignment.partition) =
          (sortSlice l).map (fun a => a.partition)) := by
    rcases hjobs with h | h
    · left
      simpa using h
    · right
      have hlen : p.jobs.length = (sortSlice l).length := by
        have := congrArg List.length (h.trans hparts.symm)
        simpa using this
      exact ⟨by simp [hlen], by rw [List.drop_zero, h, hparts]⟩
  obtain ⟨h1, h2, h3⟩ := assignmentsLoop_tracked hwf f g _ (sortSlice l)
    (fun a ha => hl a ((mem_sortSlice a l).1 ha)) 0 p [] (LoopInv.start p hwf) hpos
    (by simpa using htr) pf accf hs
  rw [hq]
  constructor
  · rw [h3] at h1
    simpa using h1
  · right
    simp only
    rw [h2, hparts]
    simp

theorem reconcileAll_fixed (f : Nat → Bool) (parts : List Partition)
    (rs : List (Int × List BrokerPartitionAssignment))
    (hrs : ∀ r ∈ rs, (sortSlice r.2).map (fun a => a.partition) = parts ∧
      ∀ a ∈ r.2, a.leaderBroker ≠ "")
    (p q : TopicPublisher) (hwf : WellFormed p) (htr : Tracked p.jobs p.trace)
    (hjobs : p.jobs = [] ∨ p.jobs.map (fun j => j.assignment.partition) = parts)
    (h : reconcileAll f rs p = some q) :
    WellFormed q ∧ Tracked q.jobs q.trace ∧
      (q.jobs = [] ∨ q.jobs.map (fun j => j.assignment.partition) = parts) := by
  induction rs generalizing p with
  | nil =>
    simp only [reconcileAll] at h
    injection h with h
    rw [← h]
    exact ⟨hwf, htr, hjobs⟩
  | cons r rest ih =>
    obtain ⟨g, l⟩ := r
    cases hs : onEachAssignments f p g l with
    | finished p1 =>
      simp only [reconcileAll, hs] at h
      obtain ⟨hp, hleaders⟩ := hrs (g, l) (by simp)
      obtain ⟨k1, k2⟩ := onEachAssignments_fixed f p g l p1 parts hwf htr hjobs hleaders hp hs
      exact ih (fun r hr => hrs r (by simp [hr])) p1
        (onEachAssignments_wellFormed f p g l p1 hwf hs) k1 k2 h
    | blocked p1 j =>
      simp [reconcileAll, hs] at h

theorem activeRanges_nodup (p : TopicPublisher) (hwf : WellFormed p)
    (htr : Tracked p.jobs p.trace)
    (hnd : (p.jobs.map (fun j => j.assignment.partition)).Nodup) :
    (activeRanges p.trace).Nodup := by
  have hstarted : (startedWorkers p.trace).Nodup := List.Nodup.of_map _ hwf.started_nodup
  have hactive : (activeWorkers p.trace).Nodup := List.Nodup.filter _ hstarted
  apply List.Nodup.map_on _ hactive
  intro x hx y hy hxy
  obtain ⟨hx1, hx2⟩ := List.mem_filter.1 hx
  obtain ⟨hy1, hy2⟩ := List.mem_filter.1 hy
  obtain ⟨jx, hjx, hjxid, hjxp⟩ := htr x hx1 (by simpa using hx2)
  obtain ⟨jy, hjy, hjyid, hjyp⟩ := htr y hy1 (by simpa using hy2)
  have hj : jx = jy := List.inj_on_of_nodup_map hnd hjx hjy (by rw [hjxp, hjyp]; exact hxy)
  exact List.inj_on_of_nodup_map hwf.started_nodup hx1 hy1 (by rw [← hjxid, ← hjyid, hj])

/-- C2, amended: for every sequence of reconciliations that starts from the
empty table, in which every call of `onEachAssignments` returns and every
assignment list names the same partitions `parts`, with pairwise different
range starts, each with a non-empty leader, there is after the sequence at
most one worker that was started and not signalled to stop for any given
partition range. -/
theorem fixed_partitions_one_active_worker (f : Nat → Bool) (parts : List Partition)
    (hstarts : (parts.map (fun r => r.rangeStart)).Nodup)
    (rs : List (Int × List BrokerPartitionAssignment))
    (hrs : ∀ r ∈ rs, (sortSlice r.2).map (fun a => a.partition) = parts ∧
      ∀ a ∈ r.2, a.leaderBroker ≠ "")
    (p : TopicPublisher) (hreach : reconcileAll f rs TopicPublisher.init = some p) :
    (activeRanges p.trace).Nodup := by
  obtain ⟨hwf, htr, hjobs⟩ := reconcileAll_fixed f parts rs hrs TopicPublisher.init p
    WellFormed.init (by intro w hw; simp [TopicPublisher.init, startedWorkers] at hw)
    (Or.inl rfl) hreach
  apply activeRanges_nodup p hwf htr
  rcases hjobs with h | h
  · rw [h]
    simp
  · rw [h]
    exact List.Nodup.of_map _ hstarts

/-- C2, amended, at two reconciliations with the ranges `[0, 10)` and
`[10, 20)`, the second of which moves `[10, 20)` to another leader. -/
theorem fixed_partitions_one_active_worker_witness :
    ∃ p, reconcileAll allFinish
        [(1, [assign 10 20 "b", assign 0 10 "a"]), (2, [assign 0 10 "a", assign 10 20 "c"])]
        TopicPublisher.init = some p ∧
      (activeRanges p.trace).Nodup :=
  ⟨_, rfl,
    fixed_partitions_one_active_worker allFinish
      [{ rangeStart := 0, rangeStop := 10 }, { rangeStart := 10, rangeStop := 20 }]
      (by decide)
      [(1, [assign 10 20 "b", assign 0 10 "a"]), (2, [assign 0 10 "a", assign 10 20 "c"])]
      (by decide) _ rfl⟩

/-! ### Readiness -/

theorem assignmentsLoop_empty_table (f : Nat → Bool) (g : Int) (hx : Bool)
    (rest : List BrokerPartitionAssignment) (i : Nat) (p : TopicPublisher)
    (acc : List EachPartitionPublishJob) (hp : p.jobs = []) :
    ∃ pf accf, assignmentsLoop f g hx i rest p acc = Step.next pf accf := by
  induction rest generalizing i p acc with
  | nil => exact ⟨p, acc, rfl⟩
  | cons a rest ih =>
    have hnone : p.jobs[i]? = none := by
      rw [hp]
      rfl
    rcases eachAssignment_cases f g hx i a p acc with
      ⟨-, he⟩ | ⟨-, j, -, hj, -, -⟩ | ⟨-, j, -, hj, -, -, -, -⟩ |
      ⟨-, j, -, hj, -, -, -, -⟩ | ⟨-, -, he⟩
    · simp only [assignmentsLoop, he]
      exact ih _ _ _ hp
    · rw [hnone] at hj; cases hj
    · rw [hnone] at hj; cases hj
    · rw [hnone] at hj; cases hj
    · simp only [assignmentsLoop, he]
      exact ih _ _ _ (by simp [startJob, hp])

/-- On an empty table `onEachAssignments` waits for no goroutine: it returns. -/
theorem onEachAssignments_empty_table (f : Nat → Bool) (p : TopicPublisher) (g : Int)
    (l : List BrokerPartitionAssignment) (hp : p.jobs = []) :
    ∃ q, onEachAssignments f p g l = Reconciled.finished q := by
  obtain ⟨pf, accf, hs⟩ := assignmentsLoop_empty_table f g
    (decide (p.jobs.length = (sortSlice l).length)) (sortSlice l) 0 p [] hp
  exact ⟨{ pf with jobs := accf }, by simp [onEachAssignments, hs]⟩

theorem schedulerLoop_reconciles (t : TopicName) (bootstrapBrokers : List String)
    (finishes : Nat → Bool) (faults : List EachPartitionError)
    (lookups : List (String → BrokerReply)) (s : Scheduler) (h0 : s.generation = 0)
    (hp : s.p.jobs = [])
    (hex : ∃ rpc ∈ lookups, ∃ l,
      (doLookupTopicPartitions t rpc bootstrapBrokers).result = Except.ok l) :
    SchedEvent.reconciled 1 ∈
      (schedulerLoop t bootstrapBrokers finishes faults lookups s).trace := by
  induction lookups generalizing s with
  | nil =>
    obtain ⟨rpc, hrpc, -⟩ := hex
    simp at hrpc
  | cons rpc later ih =>
    cases hres : (doLookupTopicPartitions t rpc bootstrapBrokers).result with
    | error e =>
      simp only [schedulerLoop, hres]
      apply ih { s with trace := s.trace ++ [SchedEvent.lookupFailed] } h0 hp
      obtain ⟨rpc2, hrpc2, l, hl⟩ := hex
      rcases List.mem_cons.1 hrpc2 with he | hm
      · subst he
        rw [hres] at hl
        cases hl
      · exact ⟨rpc2, hm, l, hl⟩
    | ok assignments =>
      obtain ⟨q, hq⟩ := onEachAssignments_empty_table finishes s.p 1 assignments hp
      simp [schedulerLoop, hres, h0, hq, faultLoop_spec]

theorem schedulerLoop_ready_once (t : TopicName) (finishes : Nat → Bool) (p : TopicPublisher)
    (bootstrapBrokers : List String) (lookups : List (String → BrokerReply))
    (faults : List EachPartitionError) (s : Scheduler)
    (hs : s = schedulerLoop t bootstrapBrokers finishes faults lookups
      { generation := 0, errChan := none, p := p, trace := [], point := SchedPoint.lookingUp }) :
    s.trace.count SchedEvent.ready ≤ 1 ∧
      ((∃ g, SchedEvent.reconciled g ∈ s.trace) → s.trace.count SchedEvent.ready = 1) ∧
      ((∀ g, SchedEvent.reconciled g ∉ s.trace) → s.trace.count SchedEvent.ready = 0) ∧
      (∀ pre post, s.trace = pre ++ SchedEvent.ready :: post →
        (∃ k, pre = List.replicate k SchedEvent.lookupFailed ++
          [SchedEvent.lookupOk 1, SchedEvent.reconciled 1]) ∧
        (∀ e ∈ post, ∃ f, e = SchedEvent.fault f)) := by
  subst hs
  obtain ⟨k, -, h⟩ := schedulerLoop_shape t bootstrapBrokers finishes faults lookups
    { generation := 0, errChan := none, p := p, trace := [], point := SchedPoint.lookingUp } rfl
  have hc0 : List.count SchedEvent.ready (List.replicate k SchedEvent.lookupFailed) = 0 :=
    List.count_eq_zero.2 (ready_not_mem_replicate k)
  have hcf : List.count SchedEvent.ready (faults.map SchedEvent.fault) = 0 :=
    List.count_eq_zero.2 (ready_not_mem_faults faults)
  rcases h with ⟨htr, -, -⟩ | ⟨htr, -, -⟩ | ⟨htr, -, -⟩
  · simp only [List.nil_append] at htr
    rw [htr]
    refine ⟨(le_of_eq hc0).trans (Nat.zero_le 1), ?_, fun _ => hc0, ?_⟩
    · rintro ⟨g, hg⟩
      exact absurd hg (reconciled_not_mem_replicate k g)
    · intro pre post hsplit
      exfalso
      apply ready_not_mem_replicate k
      rw [hsplit]
      simp
  · simp only [List.nil_append] at htr
    rw [htr]
    have hc : List.count SchedEvent.ready
        (List.replicate k SchedEvent.lookupFailed ++ [SchedEvent.lookupOk 1]) = 0 := by
      rw [List.count_append, hc0]
      simp
    refine ⟨(le_of_eq hc).trans (Nat.zero_le 1), ?_, fun _ => hc, ?_⟩
    · rintro ⟨g, hg⟩
      rcases List.mem_append.1 hg with hg | hg
      · exact absurd hg (reconciled_not_mem_replicate k g)
      · simp at hg
    · intro pre post hsplit
      exfalso
      have hm : SchedEvent.ready ∈
          List.replicate k SchedEvent.lookupFailed ++ [SchedEvent.lookupOk 1] := by
        rw [hsplit]
        simp
      rcases List.mem_append.1 hm with hm | hm
      · exact ready_not_mem_replicate k hm
      · simp at hm
  · simp only [List.nil_append] at htr
    rw [htr]
    have hc : List.count SchedEvent.ready
        (List.replicate k SchedEvent.lookupFailed ++
          [SchedEvent.lookupOk 1, SchedEvent.reconciled 1, SchedEvent.ready] ++
          faults.map SchedEvent.fault) = 1 := by
      rw [List.count_append, List.count_append, hc0, hcf]
      simp
    refine ⟨le_of_eq hc, fun _ => hc, ?_, ?_⟩
    · intro hno
      exact absurd (by simp) (hno 1)
    · intro pre post hsplit
      have hshape : List.replicate k SchedEvent.lookupFailed ++
            [SchedEvent.lookupOk 1, SchedEvent.reconciled 1, SchedEvent.ready] ++
            faults.map SchedEvent.fault =
          (List.replicate k SchedEvent.lookupFailed ++
            [SchedEvent.lookupOk 1, SchedEvent.reconciled 1]) ++
            SchedEvent.ready :: faults.map SchedEvent.fault := by
        simp
      rw [hshape] at hsplit
      have hA : SchedEvent.ready ∉ List.replicate k SchedEvent.lookupFailed ++
          [SchedEvent.lookupOk 1, SchedEvent.reconciled 1] := by
        intro hm
        rcases List.mem_append.1 hm with hm | hm
        · exact ready_not_mem_replicate k hm
        · simp at hm
      obtain ⟨h1, h2⟩ := split_unique SchedEvent.ready _ _ pre post hA
        (ready_not_mem_faults faults) hsplit.symm
      refine ⟨⟨k, h1⟩, ?_⟩
      intro e he
      rw [h2] at he
      obtain ⟨f, -, hf⟩ := List.mem_map.1 he
      exact ⟨f, hf.symm⟩


/-- C10: over every run of `StartSchedulerThread` whose topic configuration
succeeded, whatever the lookups answer and whatever faults arrive, the
function keeps running and readiness is signalled at most once; it is
signalled exactly once as soon as a reconciliation has returned and not at all
before; the signal comes right after the reconciliation of the first successful
lookup (generation 1), which only failed lookups precede, and only receipts of
faults follow it; started on a publisher with an empty table, it is signalled
exactly once in every run in which some lookup succeeds. -/
theorem StartSchedulerThread_ready_once (t : TopicName) (configure : String → Option String)
    (finishes : Nat → Bool) (p : TopicPublisher) (bootstrapBrokers : List String)
    (lookups : List (String → BrokerReply)) (faults : List EachPartitionError)
    (hconf : doEnsureConfigureTopic t configure bootstrapBrokers = none) :
    ∃ s, StartSchedulerThread t configure finishes p bootstrapBrokers lookups faults =
        SchedulerRun.running s ∧
      s.trace.count SchedEvent.ready ≤ 1 ∧
      ((∃ g, SchedEvent.reconciled g ∈ s.trace) → s.trace.count SchedEvent.ready = 1) ∧
      ((∀ g, SchedEvent.reconciled g ∉ s.trace) → s.trace.count SchedEvent.ready = 0) ∧
      (∀ pre post, s.trace = pre ++ SchedEvent.ready :: post →
        (∃ k, pre = List.replicate k SchedEvent.lookupFailed ++
          [SchedEvent.lookupOk 1, SchedEvent.reconciled 1]) ∧
        (∀ e ∈ post, ∃ f, e = SchedEvent.fault f)) ∧
      (p.jobs = [] →
        (∃ rpc ∈ lookups, ∃ l,
          (doLookupTopicPartitions t rpc bootstrapBrokers).result = Except.ok l) →
        s.trace.count SchedEvent.ready = 1) := by
  obtain ⟨h1, h2, h3, h4⟩ := schedulerLoop_ready_once t finishes p bootstrapBrokers lookups
    faults _ rfl
  refine ⟨_, by simp [StartSchedulerThread, hconf], h1, h2, h3, h4, ?_⟩
  intro hp hex
  exact h2 ⟨1, schedulerLoop_reconciles t bootstrapBrokers finishes faults lookups
    { generation := 0, errChan := none, p := p, trace := [], point := SchedPoint.lookingUp }
    rfl hp hex⟩

/-- C10 at a run whose first lookup fails and whose second succeeds, after
which a fault of generation 1 arrives: one readiness signal. -/
theorem StartSchedulerThread_ready_once_witness :
    ∃ s, StartSchedulerThread exTopic exConfigure allFinish TopicPublisher.init ["b"]
        [exDownCluster, exCluster, exCluster] [exFault 1] = SchedulerRun.running s ∧
      s.trace.count SchedEvent.ready ≤ 1 ∧
      ((∃ g, SchedEvent.reconciled g ∈ s.trace) → s.trace.count SchedEvent.ready = 1) ∧
      ((∀ g, SchedEvent.reconciled g ∉ s.trace) → s.trace.count SchedEvent.ready = 0) ∧
      (∀ pre post, s.trace = pre ++ SchedEvent.ready :: post →
        (∃ k, pre = List.replicate k SchedEvent.lookupFailed ++
          [SchedEvent.lookupOk 1, SchedEvent.reconciled 1]) ∧
        (∀ e ∈ post, ∃ f, e = SchedEvent.fault f)) ∧
      (TopicPublisher.init.jobs = [] →
        (∃ rpc ∈ [exDownCluster, exCluster, exCluster], ∃ l,
          (doLookupTopicPartitions exTopic rpc ["b"]).result = Except.ok l) →
        s.trace.count SchedEvent.ready = 1) :=
  StartSchedulerThread_ready_once exTopic exConfigure allFinish TopicPublisher.init ["b"]
    [exDownCluster, exCluster, exCluster] [exFault 1] (by decide)

end PubClient
